import Mathlib

/-!
Verification development for the pixel-filter module of ImageStack
(`branches/newimage/src/Filter.cpp`).  Sample values (C++ `float`) are
modelled as exact rationals `ℚ`; the float sentinels `INF`/`-INF` used by
the sliding min/max filters are modelled as `⊤ : WithTop ℚ` (resp.
`⊥ : WithBot ℚ`); C++ `int` values are modelled as `ℤ` (with an explicit
32-bit two's-complement view where machine bit operations matter) and
`size_t` as naturals reduced modulo `2^64` where wrap-around matters.
Loops are translated as folds over their iteration ranges; in-place image
mutation is explicit state passing of arrays.
-/

/-! ### Small total-access array kit

`Array.getD`/`Array.setD` are the total models of C++ `operator[]` reads
and writes at indices we separately prove in bounds. -/

theorem size_setD {β : Type*} (a : Array β) (i : ℕ) (v : β) :
    (a.setD i v).size = a.size := by
  unfold Array.setD
  split <;> simp

theorem getD_setD_self {β : Type*} (a : Array β) (i : ℕ) (v d : β)
    (h : i < a.size) : (a.setD i v).getD i d = v := by
  unfold Array.setD
  rw [dif_pos h]
  simp [Array.getD, h, Array.get_set_eq]

theorem getD_setD_ne {β : Type*} (a : Array β) (i j : ℕ) (v d : β)
    (hij : i ≠ j) : (a.setD i v).getD j d = a.getD j d := by
  unfold Array.setD
  split
  · next h =>
    simp only [Array.getD, Array.size_set]
    split
    · next h2 => simp [Array.get_set _ _ _ h2, hij]
    · rfl
  · rfl

theorem getD_mkArray {β : Type*} (n i : ℕ) (v d : β) (h : i < n) :
    (Array.mkArray n v).getD i d = v := by
  simp [Array.getD, h]

theorem getD_of_lt {β : Type*} (a : Array β) (i : ℕ) (d : β) (h : i < a.size) :
    a.getD i d = a[i] := by
  simp [Array.getD, h]

/-! ## HotPixelSuppression  (claim C10)

`HotPixelSuppression::apply` allocates `NewImage out(im.width, im.height,
im.frames, im.channels)` — a fresh buffer whose backing store
(`new vector<float>(...)`) is value-initialized to `0` — and then loops
`t ∈ [0,frames)`, `y ∈ [1,height-1)`, `x ∈ [1,width-1)`, `c ∈ [0,channels)`
writing `out(x,y,t,c)`; it never writes to `im`.  The loop body reads the
four axis neighbours, computes `maxn`/`minn`, and clamps `here` by the two
`if`s.  The translation below gives the resulting `out` as a function of
the coordinates: coordinates touched by the loop nest get the loop body's
value, all other coordinates keep the allocation value `0`. -/

def hotPixelSuppression (width height frames channels : ℤ)
    (im : ℤ → ℤ → ℤ → ℤ → ℚ) : ℤ → ℤ → ℤ → ℤ → ℚ := fun x y t c =>
  if 0 ≤ t ∧ t < frames ∧ 1 ≤ y ∧ y < height - 1 ∧ 1 ≤ x ∧ x < width - 1 ∧
      0 ≤ c ∧ c < channels then
    let n1 := im (x-1) y t c
    let n2 := im (x+1) y t c
    let n3 := im x (y-1) t c
    let n4 := im x (y+1) t c
    let here := im x y t c
    let maxn := max (max n1 n2) (max n3 n4)
    let minn := min (min n1 n2) (min n3 n4)
    let here := if here > maxn then maxn else here
    let here := if here < minn then minn else here
    here
  else 0

/-- C10 (confirmed): `HotPixelSuppression::apply` returns a fresh buffer in
which every interior pixel (`0 < x < width-1`, `0 < y < height-1`) holds the
input value clamped between the minimum and the maximum of its four axis
neighbours, while every border pixel (`x = 0`, `x = width-1`, `y = 0`, or
`y = height-1`) keeps the freshly allocated value `0`.  (The translation is
a pure function of `im`, mirroring that the C++ code never writes to the
input buffer.) -/
theorem hotPixelSuppression_interior_clamped_and_border_zero
    (width height frames channels : ℤ) (im : ℤ → ℤ → ℤ → ℤ → ℚ)
    (x y t c : ℤ) (ht : 0 ≤ t ∧ t < frames) (hc : 0 ≤ c ∧ c < channels)
    (hx : 0 ≤ x ∧ x < width) (hy : 0 ≤ y ∧ y < height) :
    (0 < x → x < width - 1 → 0 < y → y < height - 1 →
      hotPixelSuppression width height frames channels im x y t c =
        max (min (min (im (x-1) y t c) (im (x+1) y t c))
              (min (im x (y-1) t c) (im x (y+1) t c)))
          (min (im x y t c)
            (max (max (im (x-1) y t c) (im (x+1) y t c))
              (max (im x (y-1) t c) (im x (y+1) t c))))) ∧
    ((x = 0 ∨ x = width - 1 ∨ y = 0 ∨ y = height - 1) →
      hotPixelSuppression width height frames channels im x y t c = 0) := by
  constructor
  · intro hx0 hx1 hy0 hy1
    have hcond : 0 ≤ t ∧ t < frames ∧ 1 ≤ y ∧ y < height - 1 ∧ 1 ≤ x ∧
        x < width - 1 ∧ 0 ≤ c ∧ c < channels := by
      exact ⟨ht.1, ht.2, by omega, hy1, by omega, hx1, hc.1, hc.2⟩
    simp only [hotPixelSuppression, if_pos hcond]
    set n1 := im (x-1) y t c
    set n2 := im (x+1) y t c
    set n3 := im x (y-1) t c
    set n4 := im x (y+1) t c
    set here := im x y t c
    have hmm : min (min n1 n2) (min n3 n4) ≤ max (max n1 n2) (max n3 n4) :=
      le_trans (min_le_left _ _)
        (le_trans (min_le_left _ _) (le_trans (le_max_left _ _) (le_max_left _ _)))
    rcases le_or_lt here (max (max n1 n2) (max n3 n4)) with hle | hgt
    · rw [if_neg (not_lt.mpr hle)]
      rcases lt_or_le here (min (min n1 n2) (min n3 n4)) with hlt2 | hge2
      · rw [if_pos hlt2]
        rw [min_eq_left hle, max_eq_left (le_of_lt hlt2)]
      · rw [if_neg (not_lt.mpr hge2)]
        rw [min_eq_left hle, max_eq_right hge2]
    · rw [if_pos hgt]
      have : ¬ (max (max n1 n2) (max n3 n4) < min (min n1 n2) (min n3 n4)) :=
        not_lt.mpr hmm
      rw [if_neg this]
      rw [min_eq_right (le_of_lt hgt), max_eq_right hmm]
  · intro hb
    have hcond : ¬ (0 ≤ t ∧ t < frames ∧ 1 ≤ y ∧ y < height - 1 ∧ 1 ≤ x ∧
        x < width - 1 ∧ 0 ≤ c ∧ c < channels) := by
      rcases hb with h | h | h | h <;> omega
    rw [hotPixelSuppression, if_neg hcond]

/-- Example input used by the C10 witness: a 3×3 single-frame single-channel
image with a hot centre pixel. -/
def hotPixelExample : ℤ → ℤ → ℤ → ℤ → ℚ := fun x y _ _ =>
  if x = 1 ∧ y = 1 then 10
  else if x = 0 ∧ y = 1 then 1
  else if x = 2 ∧ y = 1 then 2
  else if x = 1 ∧ y = 0 then 3
  else if x = 1 ∧ y = 2 then 4
  else 0

/-- Witness for C10: on the concrete 3×3 example the interior pixel (1,1) is
clamped to the neighbour maximum 4 and the border pixel (0,1) is 0. -/
theorem hotPixelSuppression_witness :
    hotPixelSuppression 3 3 1 1 hotPixelExample 1 1 0 0 = 4 ∧
    hotPixelSuppression 3 3 1 1 hotPixelExample 0 1 0 0 = 0 := by
  have h1 := hotPixelSuppression_interior_clamped_and_border_zero 3 3 1 1
    hotPixelExample 1 1 0 0 (by norm_num) (by norm_num) (by norm_num) (by norm_num)
  have h2 := hotPixelSuppression_interior_clamped_and_border_zero 3 3 1 1
    hotPixelExample 0 1 0 0 (by norm_num) (by norm_num) (by norm_num) (by norm_num)
  constructor
  · have := h1.1 (by norm_num) (by norm_num) (by norm_num) (by norm_num)
    rw [this]
    norm_num [hotPixelExample]
  · exact h2.2 (Or.inl rfl)

/-! ## RectFilter::apply precondition  (claim C9)

`RectFilter::apply` begins with
`assert(filterFrames & filterWidth & filterHeight & 1, "filter shape must be odd\n");`
on C++ `int` arguments.  The assert *passes* (the operation proceeds) iff
the bitwise AND is nonzero.  We model the 32-bit two's-complement view of
each `int` and the machine AND on it. -/

def u32 (x : ℤ) : ℕ := (x % 2 ^ 32).toNat

/-- Condition of the `assert` guarding `RectFilter::apply`: `true` means the
assert passes and the filter proceeds, `false` means it aborts with
"filter shape must be odd". -/
def rectFilterShapeCheck (filterWidth filterHeight filterFrames : ℤ) : Bool :=
  decide (u32 filterFrames &&& u32 filterWidth &&& u32 filterHeight &&& 1 ≠ 0)

theorem u32_odd_iff (x : ℤ) : (u32 x).testBit 0 = true ↔ x % 2 = 1 := by
  rw [Nat.testBit_zero]
  have h32 : (2:ℤ) ^ 32 ≠ 0 := by norm_num
  have hnn : 0 ≤ x % 2 ^ 32 := Int.emod_nonneg x h32
  have hcast : ((u32 x : ℤ)) = x % 2 ^ 32 := Int.toNat_of_nonneg hnn
  have hdvd : (2:ℤ) ∣ 2 ^ 32 := dvd_pow_self 2 (by norm_num)
  have hmod : (x % 2 ^ 32) % 2 = x % 2 := Int.emod_emod_of_dvd x hdvd
  constructor
  · intro h
    have h' : u32 x % 2 = 1 := by simpa using h
    have : ((u32 x : ℤ)) % 2 = 1 := by exact_mod_cast h'
    rw [hcast, hmod] at this
    exact this
  · intro h
    have : ((u32 x : ℤ)) % 2 = 1 := by rw [hcast, hmod]; exact h
    have h' : u32 x % 2 = 1 := by exact_mod_cast this
    simpa using h'

/-- C9 counterexample (closed): with `filterWidth = -1` (a non-positive
argument), `filterHeight = 3`, `filterFrames = 1`, the assert in
`RectFilter::apply` passes — the code proceeds instead of failing, contrary
to the claim that any non-positive argument fails immediately. -/
theorem rectFilterShapeCheck_accepts_negative :
    rectFilterShapeCheck (-1) 3 1 = true := by decide

/-- C9 as amended: the `assert` guarding `RectFilter::apply` rejects its
arguments iff at least one of width, height, frames is even; oddness (not
positivity) is what the bitwise test `f & w & h & 1` checks, so negative odd
arguments are accepted. -/
theorem rectFilterShapeCheck_iff_all_odd
    (filterWidth filterHeight filterFrames : ℤ) :
    rectFilterShapeCheck filterWidth filterHeight filterFrames = false ↔
      (filterWidth % 2 = 0 ∨ filterHeight % 2 = 0 ∨ filterFrames % 2 = 0) := by
  unfold rectFilterShapeCheck
  rw [decide_eq_false_iff_not, not_ne_iff]
  have hbit : ∀ n : ℕ, n &&& 1 = 0 ↔ n.testBit 0 = false := by
    intro n
    rw [Nat.and_one_is_mod, Nat.testBit_zero]
    rcases Nat.mod_two_eq_zero_or_one n with h | h <;> simp [h]
  rw [hbit]
  rw [Nat.testBit_land, Nat.testBit_land]
  have hodd : ∀ x : ℤ, ((u32 x).testBit 0 = false) ↔ x % 2 = 0 := by
    intro x
    rcases Int.emod_two_eq x with h | h
    · refine ⟨fun _ => h, fun _ => ?_⟩
      rcases Bool.eq_false_or_eq_true ((u32 x).testBit 0) with hb | hb
      · exfalso
        have := (u32_odd_iff x).1 hb
        omega
      · exact hb
    · have htrue := (u32_odd_iff x).2 h
      rw [htrue]
      constructor
      · intro hf
        exact absurd hf (by simp)
      · intro h0
        omega
  constructor
  · intro h
    rcases Bool.and_eq_false_iff.mp h with h' | h'
    · rcases Bool.and_eq_false_iff.mp h' with h'' | h''
      · right; right; exact (hodd _).1 h''
      · left; exact (hodd _).1 h''
    · right; left; exact (hodd _).1 h'
  · intro h
    rcases h with h | h | h
    · have : (u32 filterWidth).testBit 0 = false := by
        rcases Int.emod_two_eq filterWidth with h2 | h2
        · exact (hodd _).2 h2
        · omega
      simp [this]
    · have : (u32 filterHeight).testBit 0 = false := (hodd _).2 h
      simp [this]
    · have : (u32 filterFrames).testBit 0 = false := (hodd _).2 h
      simp [this]

/-! ## FastBlur::apply fallback dispatch  (claim C3)

`FastBlur::apply(im, filterWidth, filterHeight, filterFrames, addMargin)`
first zeroes the filter size of any axis of extent 1, then tests the three
fallback conditions in the order frames, width, height.  Each fallback
branch performs one direct `GaussianBlur::apply` call and one recursive
`FastBlur::apply` call (then pastes back and returns).  The translation
records, for whichever fallback branch (if any) is taken, the exact
positional arguments of those two calls. -/

/-- Axes of an image buffer. -/
inductive Axis where
  | x : Axis
  | y : Axis
  | t : Axis
deriving DecidableEq, Repr

/-- Axes convolved by `GaussianBlur::apply(im, filterWidth, filterHeight,
filterFrames)`: it convolves along x iff its first size argument is nonzero
(`if (filterWidth != 0) { ... NewImage filter(size, 1, 1, 1); ... }`),
along y iff the second is nonzero, along t iff the third is nonzero. -/
def gaussianBlurAxes (filterWidth filterHeight filterFrames : ℚ) : List Axis :=
  (if filterWidth ≠ 0 then [Axis.x] else []) ++
  (if filterHeight ≠ 0 then [Axis.y] else []) ++
  (if filterFrames ≠ 0 then [Axis.t] else [])

/-- Arguments of the two calls made by a fallback branch of
`FastBlur::apply`: the `GaussianBlur::apply` sizes and the recursive
`FastBlur::apply` sizes, in positional order (width, height, frames). -/
structure FallbackCalls where
  gaussianW : ℚ
  gaussianH : ℚ
  gaussianF : ℚ
  recurseW : ℚ
  recurseH : ℚ
  recurseF : ℚ
deriving DecidableEq, Repr

/-- Fallback dispatch of `FastBlur::apply`, translated from the source:
degenerate axes are zeroed, then the frames, width and height fallback
conditions are tested in order; `none` means no fallback branch fires. -/
def fastBlurFallback (width height frames : ℤ)
    (filterWidth filterHeight filterFrames : ℚ) : Option FallbackCalls :=
  let fw := if width = 1 then 0 else filterWidth
  let fh := if height = 1 then 0 else filterHeight
  let ff := if frames = 1 then 0 else filterFrames
  if ff > 0 ∧ (frames < 16 ∨ ff < 1/2) then
    some ⟨ff, 0, 0, fw, fh, 0⟩
  else if fw > 0 ∧ (width < 16 ∨ fw < 1/2) then
    some ⟨0, fw, 0, 0, fh, ff⟩
  else if fh > 0 ∧ (height < 16 ∨ fh < 1/2) then
    some ⟨0, 0, fh, fw, 0, ff⟩
  else
    none

/-- C3 (code bug): on a 20×20×2 image with `filterFrames = 1` (frames axis
extent 2 < 16 triggers the fallback), the fallback branch calls
`GaussianBlur::apply(im, filterFrames, 0, 0)`, passing the frames sigma in
the *width* position, so the direct convolution runs along the x axis, not
the frames axis the claim (and the code's own comment "Filter in very
narrow directions using the regular Gaussian") requires.  The width and
height fallback branches are rotated the same way. -/
theorem fastBlur_fallback_blurs_wrong_axis :
    fastBlurFallback 20 20 2 0 0 1 = some ⟨1, 0, 0, 0, 0, 0⟩ ∧
    gaussianBlurAxes 1 0 0 = [Axis.x] ∧
    gaussianBlurAxes 1 0 0 ≠ [Axis.t] ∧
    fastBlurFallback 2 20 20 1 0 0 = some ⟨0, 1, 0, 0, 0, 0⟩ ∧
    gaussianBlurAxes 0 1 0 = [Axis.y] ∧
    gaussianBlurAxes 0 1 0 ≠ [Axis.x] := by
  refine ⟨?_, ?_, ?_, ?_, ?_, ?_⟩ <;> decide

/-! ## RectFilter::blurT chunk-read loop  (claim C8)

`RectFilter::blurY` reads each chunk with
`for (int y = 0; y < im.height; y++) { for (int j = 0; j < size; j++) chunk(y, j) = im(x+j, y, t, c); }`
— the guard tests the loop counter itself.  `RectFilter::blurT` is meant to
mirror it with `t` in place of `y`, but its read loop is
`for (int t = 0; y < im.frames; t++) { ... chunk(t, j) = im(x+j, y, t, c); }`:
the guard tests the *enclosing row index* `y`, which the loop body never
changes.  We model the guards as functions of the loop counter. -/

/-- Guard of `blurT`'s chunk-read loop at counter value `t`, inside row `y`
of an image with `frames` frames (source: `for (int t = 0; y < im.frames; t++)`). -/
def blurTReadGuard (y frames t : ℤ) : Bool := decide (y < frames)

/-- Guard of `blurY`'s chunk-read loop at counter value `y` in an image with
`height` rows (source: `for (int y = 0; y < im.height; y++)`). -/
def blurYReadGuard (height y : ℤ) : Bool := decide (y < height)

/-- Modelled from the spec: the intended guard of `blurT`'s chunk-read loop,
mirroring the row-axis transpose exactly ("transpose frames×columns the same
way rows×columns are transposed"), tests the loop counter `t` against the
frame count. -/
def blurTReadGuardIntended (y frames t : ℤ) : Bool := decide (t < frames)

/-- C8 (code bug): `blurT`'s chunk-read guard ignores its loop counter
entirely, so it does not load the chunk the way `blurY` does.  Concretely,
in a 2-frame image at row `y = 0` the guard is true for *every* counter
value — the read loop never terminates (it walks `t` off the end of the
buffer) — whereas the intended guard, mirroring `blurY`, stops at
`t = frames`; and for rows `y ≥ frames` the guard is false at `t = 0`, so
the chunk is never loaded at all. -/
theorem blurT_read_guard_ignores_counter :
    (∀ t : ℤ, blurTReadGuard 0 2 t = true) ∧
    blurTReadGuardIntended 0 2 2 = false ∧
    blurYReadGuard 2 2 = false ∧
    blurTReadGuard 5 2 0 = false ∧
    blurTReadGuardIntended 5 2 0 = true := by
  refine ⟨?_, by decide, by decide, by decide, by decide⟩
  intro t
  simp [blurTReadGuard]

/-! ### Exact fraction arithmetic

`Rat`'s arithmetic normalizes through `Nat.gcd` and does not reduce in the
kernel, so concrete runs of code that *computes* with sample values are
carried out in `Frac`, exact rational arithmetic on unnormalized
numerator/denominator pairs; `Frac.toRat` gives the represented rational.
All `Frac` operations are the exact field operations on the represented
rationals (for nonzero denominators), so a `Frac` run is an exact-real
model of the C++ float computation. -/

structure Frac where
  num : ℤ
  den : ℤ
deriving DecidableEq, Repr

def Frac.ofInt (n : ℤ) : Frac := ⟨n, 1⟩

def Frac.add (a b : Frac) : Frac := ⟨a.num * b.den + b.num * a.den, a.den * b.den⟩

def Frac.sub (a b : Frac) : Frac := ⟨a.num * b.den - b.num * a.den, a.den * b.den⟩

def Frac.mul (a b : Frac) : Frac := ⟨a.num * b.num, a.den * b.den⟩

def Frac.div (a b : Frac) : Frac := ⟨a.num * b.den, a.den * b.num⟩

def Frac.toRat (a : Frac) : ℚ := (a.num : ℚ) / (a.den : ℚ)

theorem Frac_add_toRat (a b : Frac) (ha : a.den ≠ 0) (hb : b.den ≠ 0) :
    (a.add b).toRat = a.toRat + b.toRat := by
  simp only [Frac.add, Frac.toRat]
  push_cast
  rw [div_add_div _ _ (by exact_mod_cast ha) (by exact_mod_cast hb)]
  ring_nf

theorem Frac_mul_toRat (a b : Frac) :
    (a.mul b).toRat = a.toRat * b.toRat := by
  simp only [Frac.mul, Frac.toRat]
  push_cast
  rw [div_mul_div_comm]

/-! ## RectFilter::blurX  (claim C5)

One scanline of `RectFilter::blurX(im, width, iterations)`, translated from
the source.  The per-scanline state is the circular `buffer` of width
`width`, the running `sum` (a C++ `double`, modelled exactly), `bufferIndex`,
`bufferEntries` (a C++ `int`, modelled in `ℤ`) and `mult = 1.0/bufferEntries`.
The concrete run certified below never uses a zero or negative divisor
before its last write, so it matches the C++ real-arithmetic behaviour
exactly. -/

structure BoxBlurState where
  im : Array Frac
  buffer : Array Frac
  sum : Frac
  bufferIndex : ℕ
  bufferEntries : ℤ
  mult : Frac
deriving Repr

/-- Scanline state after `blurX`'s buffer-initialization loops:
`buffer[j] = 0` for `j ∈ [0, radius]`, `buffer[j] = im(j-radius)` with `sum`
and `bufferEntries` accumulated for `j ∈ [radius+1, width)`, then
`mult = 1.0/bufferEntries`. -/
def rectBlurXStart (w : ℕ) (a : Array Frac) : BoxBlurState :=
  let radius := w / 2
  let buffer0 := (List.range (radius+1)).foldl
    (fun (b : Array Frac) j => b.setD j (Frac.ofInt 0)) (Array.mkArray w (Frac.ofInt 0))
  let st := (List.range (w - (radius+1))).foldl
    (fun (p : Array Frac × Frac × ℤ) k =>
      let j := radius + 1 + k
      let v := a.getD (j - radius) (Frac.ofInt 0)
      (p.1.setD j v, p.2.1.add v, p.2.2 + 1))
    (buffer0, Frac.ofInt 0, 0)
  { im := a, buffer := st.1, sum := st.2.1, bufferIndex := 0,
    bufferEntries := st.2.2, mult := (Frac.ofInt 1).div ⟨st.2.2, 1⟩ }

/-- Body of `blurX`'s non-boundary loop at scan position `x`: write
`sum*mult`, swap `im(x+radius+1)` into the circular buffer, and grow the
divisor while `bufferEntries < width`. -/
def boxBlurMainStep (w : ℕ) (s : BoxBlurState) (x : ℕ) : BoxBlurState :=
  let radius := w / 2
  let im := s.im.setD x (s.sum.mul s.mult)
  let newVal := im.getD (x + radius + 1) (Frac.ofInt 0)
  let sum := (s.sum.add newVal).sub (s.buffer.getD s.bufferIndex (Frac.ofInt 0))
  let buffer := s.buffer.setD s.bufferIndex newVal
  let bufferIndex := if s.bufferIndex + 1 = w then 0 else s.bufferIndex + 1
  if s.bufferEntries < (w : ℤ) then
    { im := im, buffer := buffer, sum := sum, bufferIndex := bufferIndex,
      bufferEntries := s.bufferEntries + 1,
      mult := (Frac.ofInt 1).div ⟨s.bufferEntries + 1, 1⟩ }
  else
    { im := im, buffer := buffer, sum := sum, bufferIndex := bufferIndex,
      bufferEntries := s.bufferEntries, mult := s.mult }

/-- Body of `blurX`'s boundary loop at scan position `x`: write `sum*mult`,
drop the oldest buffer slot, and shrink the divisor. -/
def boxBlurBoundaryStep (w : ℕ) (s : BoxBlurState) (x : ℕ) : BoxBlurState :=
  let im := s.im.setD x (s.sum.mul s.mult)
  let sum := s.sum.sub (s.buffer.getD s.bufferIndex (Frac.ofInt 0))
  let bufferIndex := if s.bufferIndex + 1 = w then 0 else s.bufferIndex + 1
  let bufferEntries := s.bufferEntries - 1
  { im := im, buffer := s.buffer, sum := sum, bufferIndex := bufferIndex,
    bufferEntries := bufferEntries, mult := (Frac.ofInt 1).div ⟨bufferEntries, 1⟩ }

/-- One iteration of `blurX` on one scanline: the non-boundary loop runs for
`x ∈ [0, N-radius-1)` and the boundary loop for `x ∈ [N-radius-1, N)`. -/
def rectBlurXOnePass (w : ℕ) (a : Array Frac) : Array Frac :=
  let radius := w / 2
  let N := a.size
  let afterMain := (List.range (N - (radius+1))).foldl (boxBlurMainStep w)
    (rectBlurXStart w a)
  let afterBoundary := (List.range (radius+1)).foldl
    (fun s k => boxBlurBoundaryStep w s (N - (radius+1) + k)) afterMain
  afterBoundary.im

/-- `RectFilter::blurXCompletely`: replace the scanline by its mean. -/
def blurXCompletely (a : Array Frac) : Array Frac :=
  let average := (a.foldl Frac.add (Frac.ofInt 0)).div (Frac.ofInt a.size)
  a.map (fun _ => average)

/-- `RectFilter::blurX` on one scanline, with its three early-out guards
(`width <= 1`, `im.width == 1`, `im.width <= width/2`) and the iteration
loop. -/
def rectBlurX (w iterations : ℕ) (a : Array Frac) : Array Frac :=
  if w ≤ 1 then a
  else if a.size = 1 then a
  else if a.size ≤ w / 2 then blurXCompletely a
  else (List.range iterations).foldl (fun im _ => rectBlurXOnePass w im) a

/-- C5 (code bug): a single iteration of the running-sum box blur with odd
width `3` on the constant scanline `[1,1,1]` returns `[1,1,2]`, not the
unchanged constant scanline: at the last sample the boundary loop has
decremented the divisor for a buffer slot that was never filled (the slot
reserved for sample 0, which the initialization loop skips), so the code
divides the window sum `2` by `1` instead of by `min(w, samplesSeen) = 2`. -/
theorem rectBlurX_constant_scanline_changed :
    (rectBlurX 3 1 #[Frac.ofInt 1, Frac.ofInt 1, Frac.ofInt 1]).map Frac.toRat
      = #[(1:ℚ), 1, 2] ∧
    (rectBlurX 3 1 #[Frac.ofInt 1, Frac.ofInt 1, Frac.ofInt 1]).map Frac.toRat
      ≠ #[(1:ℚ), 1, 1] := by
  have h : rectBlurX 3 1 #[Frac.ofInt 1, Frac.ofInt 1, Frac.ofInt 1] =
      #[⟨1,1⟩, ⟨2,2⟩, ⟨2,1⟩] := by decide
  rw [h]
  constructor
  · simp [Frac.toRat]
  · simp [Frac.toRat]

/-! ## MinFilter::apply at radius 0  (claim C7)

`MinFilter::apply` allocates `vector<float> heap(4*radius+1)` and repairs
the heap after each insertion with

    size_t p = pos;
    do { p--; p>>=1; heap[p] = min(heap[2*p+1], heap[2*p+2]); } while (p);

At `radius = 0` the heap has a single element and `pos = 2*radius = 0`, so
the first body execution decrements the `size_t` 0 — wrapping to
`2^64 - 1` — and shifts, producing the index `2^63 - 1`, and then writes
`heap[2^63 - 1]`: an out-of-bounds access on a one-element vector.  We
model the `size_t` arithmetic exactly. -/

def sizeTSub1 (p : ℕ) : ℕ := (p + (2 ^ 64 - 1)) % 2 ^ 64

/-- Index of the first heap cell written by the repair loop of
`MinFilter::apply` (and `MaxFilter::apply`) when it starts from leaf
position `pos`: the result of `p--; p >>= 1` on `size_t p = pos`. -/
def minFilterFirstRepairIndex (pos : ℕ) : ℕ := sizeTSub1 pos / 2

/-- Length of the heap vector allocated by `MinFilter::apply` for a given
radius (`vector<float> heap(4*radius+1)`). -/
def minFilterHeapLength (radius : ℕ) : ℕ := 4 * radius + 1

/-- C7 (code bug): at radius 0 the heap has one element and the circular
leaf position is `2*radius = 0`, so the very first repair write of
`MinFilter::apply` targets heap index `2^63 - 1` — far outside the
one-element heap.  The call therefore performs an out-of-bounds access
instead of completing as the identity. -/
theorem minFilter_radius_zero_out_of_bounds :
    minFilterHeapLength 0 = 1 ∧
    minFilterFirstRepairIndex (2 * 0) = 2 ^ 63 - 1 ∧
    ¬ minFilterFirstRepairIndex (2 * 0) < minFilterHeapLength 0 := by
  refine ⟨rfl, by decide, by decide⟩

/-! ## PercentileFilter's sliding order-statistics window  (claims C2, C6)

Translation of the local `struct SlidingNewImage` of `PercentileFilter::apply`:
a value buffer `buf` (zero-initialized `vector<float>`, values modelled in
`ℚ` — the structure only *compares* values, never does arithmetic on them)
and two selection trees `minHeap`/`maxHeap` of `(first, second)` pairs over
a complete binary tree of `heapSize` nodes, where `heapSize` is the
smallest `2^k - 1 ≥ 2*buf.size() - 1`; slot `i`'s leaf is node
`i + buf.size() - 1`.  `maxHeap` is the low partition (its root points to
the largest live low value), `minHeap` the high partition.  The repair
walk `updateFrom` is translated with an explicit fuel that is always
sufficient (the walk from node `p` visits at most `p` ancestors), as are
the `rebalance` move loops. -/

structure Sliding where
  buf : Array ℚ
  minHeap : Array (ℕ × ℕ)
  maxHeap : Array (ℕ × ℕ)
deriving Repr

/-- The `while (heapSize < 2*buf.size()-1) heapSize += heapSize+1;` loop. -/
def heapSizeLoop (fuel target h : ℕ) : ℕ :=
  match fuel with
  | 0 => h
  | fuel+1 => if h < target then heapSizeLoop fuel target (h + h + 1) else h

def slidingHeapSize (maxKey : ℕ) : ℕ := heapSizeLoop (2*maxKey+2) (2*maxKey-1) 1

/-- `SlidingNewImage(int maxKey)`: zero the buffer and both heaps, then set
each leaf's `first` pointer to its slot index (`second` stays 0). -/
def mkSliding (maxKey : ℕ) : Sliding :=
  let heapSize := slidingHeapSize maxKey
  let h0 : Array (ℕ × ℕ) := Array.mkArray heapSize (0, 0)
  let leaves := fun (h : Array (ℕ × ℕ)) =>
    (List.range maxKey).foldl (fun (a : Array (ℕ × ℕ)) i => a.setD (i + maxKey - 1) (i, 0)) h
  { buf := Array.mkArray maxKey 0, minHeap := leaves h0, maxHeap := leaves h0 }

def Sliding.isEmpty (s : Sliding) : Bool :=
  decide ((s.maxHeap.getD 0 (0,0)).2 + (s.minHeap.getD 0 (0,0)).2 = 0)

/-- `pivot()`: `buf[maxHeap[0].first]`. -/
def Sliding.pivot (s : Sliding) : ℚ := s.buf.getD (s.maxHeap.getD 0 (0,0)).1 0

/-- The parent recomputation of `updateFrom`: combine the two child pairs,
summing the live counts and pointing at the better live child (`lt` picks
the first child: `<` on buffer values for the min heap, `>` for the max). -/
def combinePair (lt : ℚ → ℚ → Bool) (buf : Array ℚ) (a b : ℕ × ℕ) : ℕ × ℕ :=
  if a.2 ≠ 0 ∧ b.2 ≠ 0 then
    (if lt (buf.getD a.1 0) (buf.getD b.1 0) then a.1 else b.1, a.2 + b.2)
  else if b.2 ≠ 0 then (b.1, a.2 + b.2)
  else (a.1, a.2 + b.2)

def updateLoopF (lt : ℚ → ℚ → Bool) (buf : Array ℚ) :
    ℕ → Array (ℕ × ℕ) → ℕ → Array (ℕ × ℕ)
  | 0, heap, _ => heap
  | fuel+1, heap, p =>
    if p = 0 then heap
    else
      let q := (p-1)/2
      let parent := combinePair lt buf (heap.getD (2*q+1) (0,0)) (heap.getD (2*q+2) (0,0))
      if heap.getD q (0,0) = parent then heap
      else updateLoopF lt buf fuel (heap.setD q parent) q

def Sliding.updateFrom (s : Sliding) (pos : ℕ) : Sliding :=
  { s with
    minHeap := updateLoopF (fun x y => decide (x < y)) s.buf (pos+1) s.minHeap pos,
    maxHeap := updateLoopF (fun x y => decide (y < x)) s.buf (pos+1) s.maxHeap pos }

/-- Set the `second` (liveness/count) component of node `i`, keeping `first`. -/
def setSecond (h : Array (ℕ × ℕ)) (i : ℕ) (v : ℕ) : Array (ℕ × ℕ) :=
  h.setD i ((h.getD i (0,0)).1, v)

/-- `insert(key, val)`: read the pivot *before* storing the value, classify
against it (empty structure or `val < p` goes to the low/`maxHeap` side),
then repair both heaps from the leaf. -/
def Sliding.insert (s : Sliding) (key : ℕ) (val : ℚ) : Sliding :=
  let p := s.pivot
  let s1 : Sliding := { s with buf := s.buf.setD key val }
  let heapIdx := key + s.buf.size - 1
  let s2 : Sliding :=
    if s1.isEmpty ∨ val < p then
      { s1 with maxHeap := setSecond s1.maxHeap heapIdx 1,
                minHeap := setSecond s1.minHeap heapIdx 0 }
    else
      { s1 with maxHeap := setSecond s1.maxHeap heapIdx 0,
                minHeap := setSecond s1.minHeap heapIdx 1 }
  s2.updateFrom heapIdx

def Sliding.remove (s : Sliding) (key : ℕ) : Sliding :=
  let heapIdx := key + s.buf.size - 1
  let s1 : Sliding := { s with minHeap := setSecond s.minHeap heapIdx 0,
                               maxHeap := setSecond s.maxHeap heapIdx 0 }
  s1.updateFrom heapIdx

/-- ImageStack's `clamp(value, lo, hi)`. -/
def clampZ (x lo hi : ℤ) : ℤ := max lo (min x hi)

/-- First `rebalance` loop: while the min heap holds more than `desired`
live values, move its minimum into the max heap, repairing after each move. -/
def moveMinToMax (fuel : ℕ) (desired : ℤ) (s : Sliding) : Sliding :=
  match fuel with
  | 0 => s
  | fuel+1 =>
    if ((s.minHeap.getD 0 (0,0)).2 : ℤ) > desired then
      let heapIdx := (s.minHeap.getD 0 (0,0)).1 + (s.buf.size - 1)
      let s1 : Sliding := { s with minHeap := setSecond s.minHeap heapIdx 0,
                                   maxHeap := setSecond s.maxHeap heapIdx 1 }
      moveMinToMax fuel desired (s1.updateFrom heapIdx)
    else s

/-- Second `rebalance` loop: while the min heap holds fewer than `desired`
live values, move the max heap's maximum into it. -/
def moveMaxToMin (fuel : ℕ) (desired : ℤ) (s : Sliding) : Sliding :=
  match fuel with
  | 0 => s
  | fuel+1 =>
    if ((s.minHeap.getD 0 (0,0)).2 : ℤ) < desired then
      let heapIdx := (s.maxHeap.getD 0 (0,0)).1 + (s.buf.size - 1)
      let s1 : Sliding := { s with minHeap := setSecond s.minHeap heapIdx 1,
                                   maxHeap := setSecond s.maxHeap heapIdx 0 }
      moveMaxToMin fuel desired (s1.updateFrom heapIdx)
    else s

/-- `rebalance(percentile)`: `total` is the sum of the two root counts and
`desiredMinHeapSize = clamp(int(total*(1.0f - percentile)), 0, total-1)`.
The float product is modelled exactly: with `percentile = n/d` (`d > 0`,
the canonical form of a `ℚ`), `int(total*(1-percentile))` is the
truncation-toward-zero of `total*(d-n)/d`, i.e. `Int.tdiv (total*(d-n)) d`. -/
def Sliding.rebalance (s : Sliding) (percentile : ℚ) (fuel : ℕ) : Sliding :=
  let total : ℤ := ((s.maxHeap.getD 0 (0,0)).2 + (s.minHeap.getD 0 (0,0)).2 : ℕ)
  let desired := clampZ (Int.tdiv (total * ((percentile.den : ℤ) - percentile.num))
    (percentile.den : ℤ)) 0 (total - 1)
  moveMaxToMin fuel desired (moveMinToMax fuel desired s)

/-- Values of the live slots: slot `k` is live iff its leaf is marked live
in either heap. -/
def Sliding.liveValues (s : Sliding) : List ℚ :=
  (List.range s.buf.size).filterMap (fun k =>
    let leaf := k + s.buf.size - 1
    if (s.minHeap.getD leaf (0,0)).2 + (s.maxHeap.getD leaf (0,0)).2 ≠ 0 then
      some (s.buf.getD k 0)
    else none)

/-- A value is a true median of a list when at least half the entries are
`≤` it and at least half are `≥` it (the claim's notion). -/
def isTrueMedian (m : ℚ) (l : List ℚ) : Prop :=
  l.length ≤ 2 * l.countP (fun v => decide (v ≤ m)) ∧
  l.length ≤ 2 * l.countP (fun v => decide (m ≤ v))

instance (m : ℚ) (l : List ℚ) : Decidable (isTrueMedian m l) := by
  unfold isTrueMedian
  infer_instance

/-- The rational 1/2 in a form whose numerator/denominator projections
reduce in the kernel. -/
def halfQ : ℚ := Rat.mk' 1 2 (by decide) (by decide)

/-- The C2 operation sequence: insert 0, 1, 2 (slots 0,1,2), remove slot 0,
insert 100 at slot 0, remove it again, insert 50 at slot 3, then
`rebalance(0.5)`.  After the two removals the low partition is empty, so
`pivot()` reads `buf[maxHeap[0].first] = buf[0] = 100` — a stale dead
value — and the final insert misclassifies 50 into the low partition
above the live high values 1 and 2. -/
def c2Run : Sliding :=
  ((((((mkSliding 4).insert 0 0).insert 1 1).insert 2 2).remove 0).insert 0 100
    |>.remove 0 |>.insert 3 50).rebalance halfQ 10

theorem halfQ_eq_half : halfQ = 1/2 := by
  apply Rat.ext <;> norm_num [halfQ]

/-- C2 (code bug): after the operation sequence of `c2Run` — which leaves
the live multiset `{1, 2, 50}` — `rebalance(0.5)` followed by `pivot()`
returns 50, which is not a true median of the live values (fewer than half
of them are `≥ 50`); the true median 2 does satisfy the median predicate.
The cause: `insert` classifies against `pivot()`, which dereferences the
max heap's root pointer even when the low partition is empty, yielding a
stale dead value. -/
theorem pivot_after_rebalance_not_median :
    c2Run.liveValues = [1, 2, 50] ∧
    c2Run.pivot = 50 ∧
    ¬ isTrueMedian c2Run.pivot c2Run.liveValues ∧
    isTrueMedian 2 c2Run.liveValues ∧
    halfQ = 1/2 := by
  refine ⟨by decide, by decide, by decide, by decide, halfQ_eq_half⟩

/-! ## MinFilter / MaxFilter sliding-extremum scan  (claim C1)

`MinFilter::apply` runs, per scanline, a sliding-window pass over a
selection tree stored in `vector<float> heap(4*radius+1)`: internal nodes
`0 .. 2r-1`, leaves `2r .. 4r` used as a circular buffer (`pos` starts at
`2*radius`).  Each step stores the next input (or the sentinel `INF`) in
leaf `pos` and repairs the ancestors with

    size_t p = pos;  do { p--; p>>=1; heap[p] = min(heap[2*p+1], heap[2*p+2]); } while (p);

For `pos ≥ 1` this do-while visits exactly the parent chain of `pos` down
to the root (`p ↦ (p-1)/2`), and we translate it as a fold over that chain
(`ancChain`); the degenerate `pos = 0` case wraps the `size_t` and is the
subject of claim C7 above.  `MaxFilter::apply` is the same code with
`max`/`-INF`; the scan below is generic over a linear order with a top
element (`min`, `⊤`), instantiated at `WithTop ℚ` for the min filter and at
`(WithBot ℚ)ᵒᵈ` for the max filter. -/

/-- Parent chain of a heap node with explicit fuel (the chain from `p` has
length at most `p`). -/
def ancChainF : ℕ → ℕ → List ℕ
  | 0, _ => []
  | fuel+1, p => if p = 0 then [] else ((p-1)/2) :: ancChainF fuel ((p-1)/2)

/-- Parent chain of heap node `p` down to the root: the exact sequence of
nodes the repair do-while writes when started at `p ≥ 1`. -/
def ancChain (p : ℕ) : List ℕ := ancChainF p p

theorem ancChainF_congr :
    ∀ p f g : ℕ, p ≤ f → p ≤ g → ancChainF f p = ancChainF g p := by
  intro p
  induction p using Nat.strong_induction_on with
  | _ p ih =>
    intro f g hf hg
    cases p with
    | zero => cases f <;> cases g <;> simp [ancChainF]
    | succ n =>
      obtain ⟨f', rfl⟩ : ∃ f', f = f' + 1 := ⟨f - 1, by omega⟩
      obtain ⟨g', rfl⟩ : ∃ g', g = g' + 1 := ⟨g - 1, by omega⟩
      simp only [ancChainF, if_neg (Nat.succ_ne_zero n)]
      congr 1
      exact ih ((n+1-1)/2) (by omega) f' g' (by omega) (by omega)

theorem ancChain_succ (p : ℕ) (hp : p ≠ 0) :
    ancChain p = (p-1)/2 :: ancChain ((p-1)/2) := by
  unfold ancChain
  obtain ⟨n, rfl⟩ : ∃ n, p = n + 1 := ⟨p - 1, by omega⟩
  simp only [ancChainF, if_neg hp]
  congr 1
  exact ancChainF_congr ((n+1-1)/2) n ((n+1-1)/2) (by omega) (by omega)

theorem ancChain_zero : ancChain 0 = [] := rfl

theorem mem_ancChain_lt : ∀ p q : ℕ, q ∈ ancChain p → q < p := by
  intro p
  induction p using Nat.strong_induction_on with
  | _ p ih =>
    intro q hq
    rcases Nat.eq_zero_or_pos p with rfl | hp
    · simp [ancChain_zero] at hq
    · rw [ancChain_succ p (by omega)] at hq
      rcases List.mem_cons.mp hq with rfl | hq'
      · omega
      · have := ih ((p-1)/2) (by omega) q hq'
        omega

theorem zero_mem_ancChain : ∀ p : ℕ, p ≠ 0 → 0 ∈ ancChain p := by
  intro p
  induction p using Nat.strong_induction_on with
  | _ p ih =>
    intro hp
    rw [ancChain_succ p hp]
    rcases Nat.eq_zero_or_pos ((p-1)/2) with hz | hpos
    · rw [hz]
      exact List.mem_cons_self _ _
    · exact List.mem_cons_of_mem _ (ih ((p-1)/2) (by omega) (by omega))

theorem ancChain_child (q p : ℕ) (h : p = 2*q+1 ∨ p = 2*q+2) :
    ancChain p = q :: ancChain q := by
  rw [ancChain_succ p (by omega)]
  have hq : (p-1)/2 = q := by omega
  rw [hq]

/-- `descOf q l`: leaf/node `l` lies in the subtree rooted at `q` (it is
`q` itself or has `q` on its parent chain). -/
def descOf (q l : ℕ) : Prop := q = l ∨ q ∈ ancChain l

instance (q l : ℕ) : Decidable (descOf q l) := by
  unfold descOf
  infer_instance

theorem descOf_self (q : ℕ) : descOf q q := Or.inl rfl

theorem not_both_children_anc :
    ∀ l q : ℕ, 2*q+1 ∈ ancChain l → 2*q+2 ∈ ancChain l → False := by
  intro l
  induction l using Nat.strong_induction_on with
  | _ l ih =>
    intro q h1 h2
    rcases Nat.eq_zero_or_pos l with rfl | hl
    · simp [ancChain_zero] at h1
    · rw [ancChain_succ l (by omega)] at h1 h2
      rcases List.mem_cons.mp h1 with he1 | ht1
      · rcases List.mem_cons.mp h2 with he2 | ht2
        · omega
        · rw [← he1, ancChain_child q (2*q+1) (Or.inl rfl)] at ht2
          rcases List.mem_cons.mp ht2 with he | hm
          · omega
          · have := mem_ancChain_lt _ _ hm
            omega
      · rcases List.mem_cons.mp h2 with he2 | ht2
        · rw [← he2, ancChain_child q (2*q+2) (Or.inr rfl)] at ht1
          rcases List.mem_cons.mp ht1 with he | hm
          · omega
          · have := mem_ancChain_lt _ _ hm
            omega
        · exact ih ((l-1)/2) (by omega) q ht1 ht2

theorem anc_trans_child (q c : ℕ) (hc : c = 2*q+1 ∨ c = 2*q+2) :
    ∀ l, c ∈ ancChain l → q ∈ ancChain l := by
  intro l
  induction l using Nat.strong_induction_on with
  | _ l ihl =>
    intro hmem
    have hl : l ≠ 0 := by
      intro h0
      rw [h0, ancChain_zero] at hmem
      simp at hmem
    rw [ancChain_succ l hl] at hmem ⊢
    rcases List.mem_cons.mp hmem with he | ht
    · refine List.mem_cons_of_mem _ ?_
      rw [← he, ancChain_child q c hc]
      exact List.mem_cons_self _ _
    · exact List.mem_cons_of_mem _ (ihl ((l-1)/2) (by omega) ht)

theorem descOf_child_iff (q l : ℕ) (hne : l ≠ q) :
    descOf q l ↔ descOf (2*q+1) l ∨ descOf (2*q+2) l := by
  constructor
  · -- walk down the chain of l
    intro h
    induction l using Nat.strong_induction_on with
    | _ l ih =>
      rcases h with rfl | hmem
      · exact absurd rfl hne
      · have hl : l ≠ 0 := by
          intro h0
          rw [h0, ancChain_zero] at hmem
          simp at hmem
        rw [ancChain_succ l hl] at hmem
        rcases List.mem_cons.mp hmem with he | ht
        · -- q is the parent of l, so l is one of q's children
          have : l = 2*q+1 ∨ l = 2*q+2 := by omega
          rcases this with h1 | h2
          · exact Or.inl (Or.inl h1.symm)
          · exact Or.inr (Or.inl h2.symm)
        · -- q is a strict ancestor of the parent of l
          have hparlt : (l-1)/2 < l := by omega
          have hparne : (l-1)/2 ≠ q := by
            intro hpq
            have := mem_ancChain_lt ((l-1)/2) q ht
            omega
          have := ih ((l-1)/2) hparlt hparne (Or.inr ht)
          have lift : ∀ c, descOf c ((l-1)/2) → descOf c l := by
            intro c hdc
            rcases hdc with rfl | hmc
            · right
              rw [ancChain_succ l hl]
              exact List.mem_cons_self _ _
            · right
              rw [ancChain_succ l hl]
              exact List.mem_cons_of_mem _ hmc
          rcases this with hc | hc
          · exact Or.inl (lift _ hc)
          · exact Or.inr (lift _ hc)
  · intro h
    have key : ∀ c, (c = 2*q+1 ∨ c = 2*q+2) → descOf c l → descOf q l := by
      intro c hc hdesc
      rcases hdesc with rfl | hmem
      · right
        rw [ancChain_child q c hc]
        exact List.mem_cons_self _ _
      · exact Or.inr (anc_trans_child q c hc l hmem)
    rcases h with hc | hc
    · exact key _ (Or.inl rfl) hc
    · exact key _ (Or.inr rfl) hc

theorem mem_ancChain_le_parent (l q : ℕ) (hl : l ≠ 0) (h : q ∈ ancChain l) :
    q ≤ (l-1)/2 := by
  rw [ancChain_succ l hl] at h
  rcases List.mem_cons.mp h with rfl | ht
  · exact le_refl _
  · exact le_of_lt (mem_ancChain_lt _ _ ht)

/-- Leaf indices of the `MinFilter` selection tree of radius `r`: the
window leaves `2r .. 4r`. -/
def leafIds (r : ℕ) : Finset ℕ := Finset.Icc (2*r) (4*r)

/-- Leaves lying in the subtree rooted at node `q`. -/
def subtreeLeaves (r q : ℕ) : Finset ℕ := (leafIds r).filter (fun l => descOf q l)

section ExtremumScanDefs

variable {α : Type*} [LinearOrder α] [OrderTop α]

/-- Infimum of the leaf values in the subtree of node `q` — the value a
correct selection tree stores at `q`. -/
def nodeInf (r : ℕ) (vals : ℕ → α) (q : ℕ) : α := (subtreeLeaves r q).inf vals

theorem subtreeLeaves_leaf (r l0 : ℕ) (hr : 1 ≤ r) (h1 : 2*r ≤ l0) (h2 : l0 ≤ 4*r) :
    subtreeLeaves r l0 = {l0} := by
  ext l
  simp only [subtreeLeaves, leafIds, Finset.mem_filter, Finset.mem_Icc,
    Finset.mem_singleton]
  constructor
  · rintro ⟨⟨hl1, hl2⟩, hd⟩
    rcases hd with h | hmem
    · exact h.symm
    · exfalso
      have hlne : l ≠ 0 := by omega
      have := mem_ancChain_le_parent l l0 hlne hmem
      omega
  · intro h
    subst h
    exact ⟨⟨h1, h2⟩, descOf_self _⟩

theorem subtreeLeaves_internal (r q : ℕ) (hq : q < 2*r) :
    subtreeLeaves r q = subtreeLeaves r (2*q+1) ∪ subtreeLeaves r (2*q+2) := by
  ext l
  simp only [subtreeLeaves, leafIds, Finset.mem_union, Finset.mem_filter,
    Finset.mem_Icc]
  constructor
  · rintro ⟨hb, hd⟩
    have hne : l ≠ q := by omega
    rcases (descOf_child_iff q l hne).mp hd with h | h
    · exact Or.inl ⟨hb, h⟩
    · exact Or.inr ⟨hb, h⟩
  · rintro (⟨hb, hd⟩ | ⟨hb, hd⟩)
    · exact ⟨hb, (descOf_child_iff q l (by omega)).mpr (Or.inl hd)⟩
    · exact ⟨hb, (descOf_child_iff q l (by omega)).mpr (Or.inr hd)⟩

theorem nodeInf_leaf (r l0 : ℕ) (vals : ℕ → α) (hr : 1 ≤ r) (h1 : 2*r ≤ l0)
    (h2 : l0 ≤ 4*r) : nodeInf r vals l0 = vals l0 := by
  rw [nodeInf, subtreeLeaves_leaf r l0 hr h1 h2, Finset.inf_singleton]

theorem nodeInf_internal (r q : ℕ) (vals : ℕ → α) (hq : q < 2*r) :
    nodeInf r vals q = min (nodeInf r vals (2*q+1)) (nodeInf r vals (2*q+2)) := by
  rw [nodeInf, subtreeLeaves_internal r q hq, Finset.inf_union]
  rw [inf_eq_min]
  rfl

theorem nodeInf_congr (r q : ℕ) (v1 v2 : ℕ → α)
    (h : ∀ l ∈ subtreeLeaves r q, v1 l = v2 l) :
    nodeInf r v1 q = nodeInf r v2 q := Finset.inf_congr rfl h

/-- The repair do-while of `MinFilter::apply` started at leaf `pos ≥ 1`:
fold the parent-recomputation over the ancestor chain of `pos`. -/
def repairHeap (heap : Array α) (pos : ℕ) : Array α :=
  (ancChain pos).foldl
    (fun h q => h.setD q (min (h.getD (2*q+1) ⊤) (h.getD (2*q+2) ⊤))) heap

theorem repairHeap_size (heap : Array α) (pos : ℕ) :
    (repairHeap heap pos).size = heap.size := by
  rw [repairHeap]
  generalize ancChain pos = l
  induction l generalizing heap with
  | nil => rfl
  | cons q l ih =>
    rw [List.foldl_cons, ih]
    exact size_setD _ _ _

theorem repair_go (r : ℕ) (hr : 1 ≤ r) (vals : ℕ → α) :
    ∀ c (heap : Array α), c < 4*r+1 → heap.size = 4*r+1 →
      (∀ q, q < 4*r+1 → q ∉ ancChain c → heap.getD q ⊤ = nodeInf r vals q) →
      ∀ q, q < 4*r+1 → (repairHeap heap c).getD q ⊤ = nodeInf r vals q := by
  intro c
  induction c using Nat.strong_induction_on with
  | _ c ihc =>
    intro heap hc hsize hpre q hq
    rcases Nat.eq_zero_or_pos c with rfl | hcpos
    · rw [repairHeap, ancChain_zero, List.foldl_nil]
      exact hpre q hq (by simp [ancChain_zero])
    · have hcne : c ≠ 0 := by omega
      rw [repairHeap, ancChain_succ c hcne, List.foldl_cons]
      set c' := (c-1)/2 with hc'
      have hc'lt : c' < c := by omega
      have hc'int : c' < 2*r := by omega
      have hch1 : 2*c'+1 < 4*r+1 := by omega
      have hch2 : 2*c'+2 < 4*r+1 := by omega
      -- the children of c' are not on the chain of c
      have hnot1 : (2*c'+1) ∉ ancChain c := by
        intro hmem
        have := mem_ancChain_le_parent c (2*c'+1) hcne hmem
        omega
      have hnot2 : (2*c'+2) ∉ ancChain c := by
        intro hmem
        have := mem_ancChain_le_parent c (2*c'+2) hcne hmem
        omega
      have hv1 := hpre (2*c'+1) hch1 hnot1
      have hv2 := hpre (2*c'+2) hch2 hnot2
      set heap' := heap.setD c' (min (heap.getD (2*c'+1) ⊤) (heap.getD (2*c'+2) ⊤))
        with hheap'
      have hsize' : heap'.size = 4*r+1 := by
        rw [hheap', size_setD, hsize]
      have hstepped : heap'.getD c' ⊤ = nodeInf r vals c' := by
        rw [hheap', getD_setD_self _ _ _ _ (by omega : c' < heap.size), hv1, hv2]
        exact (nodeInf_internal r c' vals hc'int).symm
      have hpre' : ∀ q2, q2 < 4*r+1 → q2 ∉ ancChain c' →
          heap'.getD q2 ⊤ = nodeInf r vals q2 := by
        intro q2 hq2 hq2n
        rcases eq_or_ne q2 c' with rfl | hq2ne
        · exact hstepped
        · rw [hheap', getD_setD_ne _ _ _ _ _ (Ne.symm hq2ne)]
          refine hpre q2 hq2 ?_
          rw [ancChain_succ c hcne]
          intro hmem
          rcases List.mem_cons.mp hmem with he | ht
          · exact hq2ne he
          · exact hq2n ht
      have := ihc c' hc'lt heap' (by omega) hsize' hpre' q hq
      rw [repairHeap] at this
      exact this

end ExtremumScanDefs

section ExtremumScanRun

variable {α : Type*} [LinearOrder α] [OrderTop α]

def inVal (a : Array α) (x : ℕ) : α := if x < a.size then a.getD x ⊤ else ⊤

def leafVals (a : Array α) (r k : ℕ) : ℕ → α := fun l =>
  if l - 2*r < k then inVal a ((k-1) - ((k-1) - (l - 2*r)) % (2*r+1)) else ⊤

theorem leafVals_zero (a : Array α) (r l : ℕ) : leafVals a r 0 l = ⊤ := by
  simp [leafVals]

theorem leafVals_succ_pos (a : Array α) (r k : ℕ) :
    leafVals a r (k+1) (2*r + k % (2*r+1)) = inVal a k := by
  have hw : 0 < 2*r+1 := by omega
  have hm : (2*r + k % (2*r+1)) - 2*r = k % (2*r+1) := by omega
  have hmk : k % (2*r+1) ≤ k := Nat.mod_le k _
  simp only [leafVals, hm, Nat.add_sub_cancel]
  rw [if_pos (by omega)]
  congr 1
  have hdvd : (2*r+1) ∣ (k - k % (2*r+1)) := by
    have h := Nat.mod_add_div k (2*r+1)
    have h2 : k - k % (2*r+1) = (2*r+1) * (k / (2*r+1)) := by omega
    rw [h2]
    exact Dvd.intro _ rfl
  have h0 : (k - k % (2*r+1)) % (2*r+1) = 0 := Nat.dvd_iff_mod_eq_zero.mp hdvd
  rw [h0]
  omega

theorem leafVals_succ_ne (a : Array α) (r k l : ℕ) (hl1 : 2*r ≤ l)
    (hl2 : l ≤ 4*r) (hne : l ≠ 2*r + k % (2*r+1)) :
    leafVals a r (k+1) l = leafVals a r k l := by
  have hr1 : 1 ≤ r := by
    by_contra hr0
    have hr : r = 0 := by omega
    subst hr
    simp [Nat.mod_one] at hne
    omega
  have hw2 : 2 ≤ 2*r+1 := by omega
  have hmne : l - 2*r ≠ k % (2*r+1) := by omega
  simp only [leafVals, Nat.add_sub_cancel]
  set m := l - 2*r with hmdef
  by_cases hg : m < k
  · rw [if_pos (by omega), if_pos hg]
    congr 1
    have hndvd : ¬ (k - m) % (2*r+1) = 0 := by
      intro h0
      have hdvd : (2*r+1) ∣ (k - m) := Nat.dvd_of_mod_eq_zero h0
      have hmeq : m % (2*r+1) = k % (2*r+1) :=
        (Nat.modEq_iff_dvd' (le_of_lt hg)).mpr hdvd
      rw [Nat.mod_eq_of_lt (by omega : m < 2*r+1)] at hmeq
      exact hmne hmeq
    have hk1 : k - m = ((k-1) - m) + 1 := by omega
    have hstep : (k - m) % (2*r+1) = ((k - 1) - m) % (2*r+1) + 1 := by
      rw [hk1, Nat.add_mod]
      rw [Nat.mod_eq_of_lt (show 1 < 2*r+1 by omega)]
      have hlt := Nat.mod_lt ((k-1) - m) (show 0 < 2*r+1 by omega)
      rcases Nat.lt_or_ge (((k-1) - m) % (2*r+1) + 1) (2*r+1) with hlt2 | hge2
      · exact Nat.mod_eq_of_lt hlt2
      · exfalso
        apply hndvd
        have heq : ((k-1) - m) % (2*r+1) + 1 = 2*r+1 := by omega
        rw [hk1, Nat.add_mod, Nat.mod_eq_of_lt (show 1 < 2*r+1 by omega), heq]
        simp
    rw [hstep]
    have hmle := Nat.mod_le ((k-1) - m) (2*r+1)
    omega
  · rw [if_neg, if_neg hg]
    intro hcon
    have hmk : m = k := by omega
    rw [hmk] at hmne
    exact hmne (Nat.mod_eq_of_lt (by omega)).symm


theorem subtreeLeaves_root (r : ℕ) (hr : 1 ≤ r) : subtreeLeaves r 0 = leafIds r := by
  ext l
  simp only [subtreeLeaves, leafIds, Finset.mem_filter, Finset.mem_Icc]
  constructor
  · rintro ⟨hb, _⟩
    exact hb
  · intro hb
    refine ⟨hb, Or.inr (zero_mem_ancChain l (by omega))⟩

/-- Scanline indices inside the clamped window of radius `r` centred at
`i`: the `j ∈ [0,N)` with `|j - i| ≤ r`. -/
def windowIdx (N r i : ℕ) : Finset ℕ :=
  (Finset.range N).filter (fun j => i ≤ j + r ∧ j ≤ i + r)

/-- Extremum (infimum) of the scanline over the clamped window at `i`. -/
def winInf (a : Array α) (r i : ℕ) : α :=
  (windowIdx a.size r i).inf (fun j => a.getD j ⊤)

theorem leaves_inf_eq_window (a : Array α) (r k : ℕ) (hr : 1 ≤ r) (hk : r < k)
    (hkN : k < a.size + r) :
    (leafIds r).inf (leafVals a r (k+1)) = winInf a r (k - r) := by
  have hw : 0 < 2*r+1 := by omega
  apply le_antisymm
  · -- below every window element
    apply Finset.le_inf
    intro j hj
    simp only [windowIdx, Finset.mem_filter, Finset.mem_range] at hj
    obtain ⟨hjN, hj1, hj2⟩ := hj
    have hjk : j ≤ k := by omega
    have hkj : k - j ≤ 2*r := by omega
    have hljmem : (2*r + j % (2*r+1)) ∈ leafIds r := by
      simp only [leafIds, Finset.mem_Icc]
      have := Nat.mod_lt j hw
      omega
    refine le_trans (Finset.inf_le hljmem) ?_
    have hval : leafVals a r (k+1) (2*r + j % (2*r+1)) = inVal a j := by
      simp only [leafVals, Nat.add_sub_cancel]
      have hjm : j % (2*r+1) ≤ j := Nat.mod_le j _
      rw [if_pos (by omega)]
      congr 1
      have hsimp : 2*r + j % (2*r+1) - 2*r = j % (2*r+1) := by omega
      rw [hsimp]
      have hdecomp : k - j % (2*r+1) = (k - j) + (j - j % (2*r+1)) := by omega
      have hdvd : (2*r+1) ∣ (j - j % (2*r+1)) := by
        have h := Nat.mod_add_div j (2*r+1)
        have h2 : j - j % (2*r+1) = (2*r+1) * (j / (2*r+1)) := by omega
        rw [h2]
        exact Dvd.intro _ rfl
      have h0 : (j - j % (2*r+1)) % (2*r+1) = 0 := Nat.dvd_iff_mod_eq_zero.mp hdvd
      rw [hdecomp, Nat.add_mod, h0, Nat.add_zero, Nat.mod_mod_of_dvd,
        Nat.mod_eq_of_lt (by omega : k - j < 2*r+1)]
      · omega
      · exact dvd_refl _
    rw [hval, inVal, if_pos hjN]
  · -- the window inf is below every leaf value
    apply Finset.le_inf
    intro l hl
    simp only [leafIds, Finset.mem_Icc] at hl
    by_cases hguard : l - 2*r < k + 1
    · have hunf : leafVals a r (k+1) l =
          inVal a (k - (k - (l - 2*r)) % (2*r+1)) := by
        simp only [leafVals, Nat.add_sub_cancel]
        rw [if_pos hguard]
      rw [hunf]
      set j := k - (k - (l - 2*r)) % (2*r+1) with hjdef
      by_cases hjN : j < a.size
      · rw [inVal, if_pos hjN]
        refine Finset.inf_le ?_
        simp only [windowIdx, Finset.mem_filter, Finset.mem_range]
        refine ⟨hjN, ?_, ?_⟩
        · have := Nat.mod_lt (k - (l - 2*r)) hw
          omega
        · omega
      · rw [inVal, if_neg hjN]
        exact le_top
    · have hunf : leafVals a r (k+1) l = ⊤ := by
        simp only [leafVals, Nat.add_sub_cancel]
        rw [if_neg hguard]
      rw [hunf]
      exact le_top

/-- One step of the per-scanline pass of `MinFilter::apply` (the loop body
for scan position `x`): fetch the input or sentinel, store it in the
circular leaf `pos`, repair the ancestors, write the root to `im(x-radius)`
when `x - radius > 0`, and advance `pos` with wrap-around. -/
def scanStep (N r : ℕ) (st : Array α × Array α × ℕ) (x : ℕ) :
    Array α × Array α × ℕ :=
  let im := st.1
  let heap := st.2.1
  let pos := st.2.2
  let val := if x < N then im.getD x ⊤ else ⊤
  let heap2 := heap.setD pos val
  let heap3 := repairHeap heap2 pos
  let im2 := if r < x then im.setD (x - r) (heap3.getD 0 ⊤) else im
  let pos2 := if pos + 1 = 4*r + 1 then 2*r else pos + 1
  (im2, heap3, pos2)

/-- The full 1D sliding-extremum pass of `MinFilter::apply` on one
scanline: heap initialized to sentinels, `pos = 2*radius`, scan positions
`x ∈ [0, N+radius)`. -/
def extremumScan (r : ℕ) (a : Array α) : Array α :=
  ((List.range (a.size + r)).foldl (scanStep a.size r)
    (a, Array.mkArray (4*r+1) (⊤ : α), 2*r)).1

/-- Invariant of the sliding pass after `k` steps: sizes are stable, `pos`
is the circular position for step `k`, every heap node holds the infimum of
its subtree's current leaf values, positions not yet overwritten still hold
the input, and every already-written position holds its clamped-window
extremum. -/
def scanInv (a : Array α) (r k : ℕ) (st : Array α × Array α × ℕ) : Prop :=
  st.1.size = a.size ∧
  st.2.1.size = 4*r+1 ∧
  st.2.2 = 2*r + k % (2*r+1) ∧
  (∀ q, q < 4*r+1 → st.2.1.getD q ⊤ = nodeInf r (leafVals a r k) q) ∧
  (∀ p, p < a.size → (p = 0 ∨ k ≤ p + r) → st.1.getD p ⊤ = a.getD p ⊤) ∧
  (∀ i, 1 ≤ i → i + r < k → i < a.size → st.1.getD i ⊤ = winInf a r i)

theorem scanStep_inv (a : Array α) (r k : ℕ) (hr : 1 ≤ r) (hk : k < a.size + r)
    (st : Array α × Array α × ℕ) (hinv : scanInv a r k st) :
    scanInv a r (k+1) (scanStep a.size r st k) := by
  obtain ⟨hsz1, hsz2, hpos, hheap, hpres, hwrit⟩ := hinv
  obtain ⟨im, heap, pos⟩ := st
  simp only at hsz1 hsz2 hpos hheap hpres hwrit
  have hw : 0 < 2*r+1 := by omega
  have hposb : 2*r ≤ pos ∧ pos ≤ 4*r := by
    have := Nat.mod_lt k hw
    omega
  have hval : (if k < a.size then im.getD k ⊤ else ⊤) = inVal a k := by
    rw [inVal]
    by_cases hkN : k < a.size
    · rw [if_pos hkN, if_pos hkN]
      exact hpres k hkN (Or.inr (by omega))
    · rw [if_neg hkN, if_neg hkN]
  set heap2 := heap.setD pos (if k < a.size then im.getD k ⊤ else ⊤) with hheap2
  have hsz2' : heap2.size = 4*r+1 := by rw [hheap2, size_setD, hsz2]
  have hpre2 : ∀ q, q < 4*r+1 → q ∉ ancChain pos →
      heap2.getD q ⊤ = nodeInf r (leafVals a r (k+1)) q := by
    intro q hq hqn
    rcases eq_or_ne q pos with heq | hne
    · rw [heq, hheap2, getD_setD_self _ _ _ _ (by omega : pos < heap.size), hval]
      rw [nodeInf_leaf r pos _ hr hposb.1 hposb.2, hpos]
      exact (leafVals_succ_pos a r k).symm
    · rw [hheap2, getD_setD_ne _ _ _ _ _ (Ne.symm hne), hheap q hq]
      apply nodeInf_congr
      intro l hlmem
      have hbnds : (2*r ≤ l ∧ l ≤ 4*r) ∧ descOf q l := by
        simpa only [subtreeLeaves, leafIds, Finset.mem_filter, Finset.mem_Icc]
          using hlmem
      have hlne : l ≠ pos := by
        intro hlp
        rcases hbnds.2 with he | hmem
        · exact hne (by rw [he, hlp])
        · rw [hlp] at hmem
          exact hqn hmem
      exact (leafVals_succ_ne a r k l hbnds.1.1 hbnds.1.2
        (by rw [← hpos]; exact hlne)).symm
  have hrep : ∀ q, q < 4*r+1 →
      (repairHeap heap2 pos).getD q ⊤ = nodeInf r (leafVals a r (k+1)) q :=
    repair_go r hr (leafVals a r (k+1)) pos heap2 (by omega) hsz2' hpre2
  have hroot : (repairHeap heap2 pos).getD 0 ⊤ = winInf a r (k - r) ∨ ¬ r < k := by
    by_cases hrk : r < k
    · left
      rw [hrep 0 (by omega), nodeInf, subtreeLeaves_root r hr]
      exact leaves_inf_eq_window a r k hr hrk hk
    · right
      exact hrk
  refine ⟨?_, ?_, ?_, ?_, ?_, ?_⟩
  · -- image size
    simp only [scanStep]
    by_cases hrk : r < k
    · rw [if_pos hrk, size_setD, hsz1]
    · rw [if_neg hrk, hsz1]
  · -- heap size
    simp only [scanStep]
    rw [repairHeap_size, ← hheap2, hsz2']
  · -- position arithmetic
    simp only [scanStep]
    have hmod : (k+1) % (2*r+1) = (k % (2*r+1) + 1) % (2*r+1) := by
      rw [Nat.add_mod, Nat.mod_eq_of_lt (show (1:ℕ) < 2*r+1 by omega)]
    by_cases hwrap : pos + 1 = 4*r+1
    · rw [if_pos hwrap]
      have hkm : k % (2*r+1) = 2*r := by omega
      rw [hmod, hkm]
      simp
    · rw [if_neg hwrap]
      have hkm : k % (2*r+1) < 2*r := by
        have := Nat.mod_lt k hw
        omega
      rw [hmod, Nat.mod_eq_of_lt (by omega)]
      omega
  · -- heap invariant
    intro q hq
    simp only [scanStep]
    rw [← hheap2]
    exact hrep q hq
  · -- unwritten positions keep the input
    intro p hp hcond
    simp only [scanStep]
    rw [← hheap2]
    by_cases hrk : r < k
    · rw [if_pos hrk]
      have hne : k - r ≠ p := by omega
      rw [getD_setD_ne _ _ _ _ _ hne]
      exact hpres p hp (by omega)
    · rw [if_neg hrk]
      exact hpres p hp (by omega)
  · -- written positions hold their window extremum
    intro i hi1 hik hiN
    simp only [scanStep]
    rw [← hheap2]
    by_cases hrk : r < k
    · rw [if_pos hrk]
      rcases eq_or_ne i (k - r) with rfl | hne
      · rw [getD_setD_self _ _ _ _ (by omega : k - r < im.size)]
        rcases hroot with h | h
        · exact h
        · exact absurd hrk h
      · rw [getD_setD_ne _ _ _ _ _ (Ne.symm hne)]
        exact hwrit i hi1 (by omega) hiN
    · exfalso
      omega

theorem scan_foldl_inv (a : Array α) (r : ℕ) (hr : 1 ≤ r) :
    ∀ k, k ≤ a.size + r →
      scanInv a r k ((List.range k).foldl (scanStep a.size r)
        (a, Array.mkArray (4*r+1) (⊤ : α), 2*r)) := by
  intro k
  induction k with
  | zero =>
    intro _
    refine ⟨rfl, by simp, by simp, ?_, fun p _ _ => rfl, fun i _ hi _ => by omega⟩
    intro q hq
    rw [List.range_zero, List.foldl_nil]
    have hmk : (Array.mkArray (4*r+1) (⊤ : α)).getD q ⊤ = ⊤ :=
      getD_mkArray _ _ _ _ hq
    rw [hmk]
    refine (le_antisymm le_top ?_).symm
    apply Finset.le_inf
    intro l _
    rw [leafVals_zero]
  | succ k ih =>
    intro hk1
    rw [List.range_succ, List.foldl_append, List.foldl_cons, List.foldl_nil]
    exact scanStep_inv a r k hr (by omega) _ (ih (by omega))

theorem extremumScan_correct (a : Array α) (r : ℕ) (hr : 1 ≤ r) :
    (extremumScan r a).size = a.size ∧
    (∀ i, 1 ≤ i → i < a.size → (extremumScan r a).getD i ⊤ = winInf a r i) ∧
    (0 < a.size → (extremumScan r a).getD 0 ⊤ = a.getD 0 ⊤) := by
  have h := scan_foldl_inv a r hr (a.size + r) (le_refl _)
  obtain ⟨h1, _, _, _, h5, h6⟩ := h
  refine ⟨h1, ?_, ?_⟩
  · intro i hi1 hiN
    exact h6 i hi1 (by omega) hiN
  · intro h0
    exact h5 0 h0 (Or.inl rfl)

end ExtremumScanRun

theorem getD_map {β γ : Type*} (f : β → γ) (a : Array β) (j : ℕ) (d0 : β)
    (d : γ) (hj : j < a.size) : (a.map f).getD j d = f (a.getD j d0) := by
  rw [getD_of_lt _ _ _ (by rw [Array.size_map]; exact hj), getD_of_lt _ _ _ hj]
  exact Array.getElem_map f a j (by rw [Array.size_map]; exact hj)

/-- The 1D pass of `MinFilter::apply` on a rational scanline: values live in
`WithTop ℚ`, with `⊤` playing the float sentinel `INF`. -/
def minFilterScan (r : ℕ) (a : Array ℚ) : Array (WithTop ℚ) :=
  extremumScan r (a.map (fun (v : ℚ) => (v : WithTop ℚ)))

/-- The 1D pass of `MaxFilter::apply` on a rational scanline: the same code
with `max` and `-INF`, i.e. the generic scan at the dual order of
`WithBot ℚ` (whose `⊥` plays `-INF`). -/
def maxFilterScan (r : ℕ) (a : Array ℚ) : Array (WithBot ℚ)ᵒᵈ :=
  extremumScan r (a.map (fun (v : ℚ) => OrderDual.toDual (v : WithBot ℚ)))

/-- Brute-force minimum of the scanline over the clamped window
`[max(0,i-r), min(N-1,i+r)]`. -/
def windowMinQ (a : Array ℚ) (r i : ℕ) : WithTop ℚ :=
  (windowIdx a.size r i).inf (fun j => ((a.getD j 0 : ℚ) : WithTop ℚ))

/-- Brute-force maximum of the scanline over the clamped window. -/
def windowMaxQ (a : Array ℚ) (r i : ℕ) : WithBot ℚ :=
  (windowIdx a.size r i).sup (fun j => ((a.getD j 0 : ℚ) : WithBot ℚ))

theorem mem_windowIdx_lt {N r i j : ℕ} (h : j ∈ windowIdx N r i) : j < N := by
  simp only [windowIdx, Finset.mem_filter, Finset.mem_range] at h
  exact h.1

/-- C1 as amended: for every radius `r ≥ 1`, the sliding pass of
`MinFilter::apply` (resp. `MaxFilter::apply`) writes at every index
`i ∈ [1, N)` the minimum (resp. maximum) of the input scanline over the
clamped window `[max(0,i-r), min(N-1,i+r)]`; index 0 is *never* written
(the guard is `x - radius > 0`, not `>= 0`) and keeps its original input
value. -/
theorem minMaxFilter_window_extremum (a : Array ℚ) (r : ℕ) (hr : 1 ≤ r) :
    ((minFilterScan r a).size = a.size ∧
      (∀ i, 1 ≤ i → i < a.size →
        (minFilterScan r a).getD i ⊤ = windowMinQ a r i) ∧
      (0 < a.size →
        (minFilterScan r a).getD 0 ⊤ = ((a.getD 0 0 : ℚ) : WithTop ℚ))) ∧
    ((maxFilterScan r a).size = a.size ∧
      (∀ i, 1 ≤ i → i < a.size →
        OrderDual.ofDual ((maxFilterScan r a).getD i ⊤) = windowMaxQ a r i) ∧
      (0 < a.size →
        OrderDual.ofDual ((maxFilterScan r a).getD 0 ⊤) =
          ((a.getD 0 0 : ℚ) : WithBot ℚ))) := by
  constructor
  · obtain ⟨h1, h2, h3⟩ :=
      extremumScan_correct (a.map (fun (v : ℚ) => (v : WithTop ℚ))) r hr
    rw [Array.size_map] at h1 h3
    refine ⟨h1, ?_, ?_⟩
    · intro i hi1 hiN
      rw [minFilterScan, h2 i hi1 (by rw [Array.size_map]; exact hiN)]
      rw [winInf, windowMinQ, Array.size_map]
      apply Finset.inf_congr rfl
      intro j hj
      exact getD_map _ a j 0 ⊤ (mem_windowIdx_lt hj)
    · intro h0
      rw [minFilterScan, h3 h0]
      exact getD_map _ a 0 0 ⊤ h0
  · obtain ⟨h1, h2, h3⟩ :=
      extremumScan_correct (a.map (fun (v : ℚ) => OrderDual.toDual (v : WithBot ℚ))) r hr
    rw [Array.size_map] at h1 h3
    refine ⟨h1, ?_, ?_⟩
    · intro i hi1 hiN
      rw [maxFilterScan, h2 i hi1 (by rw [Array.size_map]; exact hiN)]
      rw [winInf, windowMaxQ, Array.size_map, Finset.ofDual_inf]
      apply Finset.sup_congr rfl
      intro j hj
      have := getD_map (fun (v : ℚ) => OrderDual.toDual ((v : ℚ) : WithBot ℚ)) a j 0
        (⊤ : (WithBot ℚ)ᵒᵈ) (mem_windowIdx_lt hj)
      simp only [Function.comp]
      rw [this]
      rfl
    · intro h0
      rw [maxFilterScan, h3 h0]
      have := getD_map (fun (v : ℚ) => OrderDual.toDual ((v : ℚ) : WithBot ℚ)) a 0 0
        (⊤ : (WithBot ℚ)ᵒᵈ) h0
      rw [this]
      rfl

/-- Witness for the amended C1 at a concrete input (`r = 1`,
scanline `[5,3]`, index 1). -/
theorem minMaxFilter_window_extremum_witness :
    (minFilterScan 1 #[(5:ℚ), 3]).getD 1 ⊤ = windowMinQ #[(5:ℚ), 3] 1 1 ∧
    OrderDual.ofDual ((maxFilterScan 1 #[(5:ℚ), 3]).getD 1 ⊤) =
      windowMaxQ #[(5:ℚ), 3] 1 1 := by
  have h := minMaxFilter_window_extremum #[(5:ℚ), 3] 1 (le_refl 1)
  exact ⟨h.1.2.1 1 (le_refl 1) (by decide), h.2.2.1 1 (le_refl 1) (by decide)⟩

/-- C1 counterexample (closed): with radius 1 on the scanline `[5,3]`, the
clamped-window minimum at index 0 is 3, but the pass leaves index 0 at its
original value 5 — the write-out guard `x - radius > 0` skips index 0, so
index 0 does *not* receive its clamped-window extremum as claimed. -/
theorem minFilter_misses_index_zero :
    (minFilterScan 1 #[(5:ℚ), 3]).getD 0 ⊤ = ((5:ℚ) : WithTop ℚ) ∧
    windowMinQ #[(5:ℚ), 3] 1 0 = ((3:ℚ) : WithTop ℚ) ∧
    ((5:ℚ) : WithTop ℚ) ≠ ((3:ℚ) : WithTop ℚ) := by
  refine ⟨by decide, by decide, by decide⟩

/-! ## Partition sizes after rebalance  (claim C6)

For the partition-size behaviour of `rebalance` no ordering semantics are
needed: it suffices that every heap node's `second` is the number of live
slots in its subtree and that a node with nonzero count points (via
`first`) at a live slot in its subtree.  These are preserved by the repair
walk even across its early break (a break forces the leaf's liveness to be
unchanged, hence all counts and liveness sets to be unchanged). -/

theorem ancChain_trans :
    ∀ l p q : ℕ, p ∈ ancChain l → q ∈ ancChain p → q ∈ ancChain l := by
  intro l
  induction l using Nat.strong_induction_on with
  | _ l ih =>
    intro p q hp hq
    have hl : l ≠ 0 := by
      intro h0
      rw [h0, ancChain_zero] at hp
      simp at hp
    rw [ancChain_succ l hl] at hp ⊢
    rcases List.mem_cons.mp hp with he | ht
    · exact List.mem_cons_of_mem _ (by rw [he] at hq; exact hq)
    · exact List.mem_cons_of_mem _ (ih ((l-1)/2) (by omega) p q ht hq)

theorem parent_mem_ancChain (l p : ℕ) (hp : p ∈ ancChain l) (hpne : p ≠ 0) :
    (p-1)/2 ∈ ancChain l := by
  refine ancChain_trans l p ((p-1)/2) hp ?_
  rw [ancChain_succ p hpne]
  exact List.mem_cons_self _ _

/-- Slots (buffer keys) whose leaf lies in the subtree of node `p`, in a
structure with `B` slots (leaf of slot `k` is node `k + B - 1`). -/
def slotsUnder (B p : ℕ) : Finset ℕ :=
  (Finset.range B).filter (fun k => descOf p (k + B - 1))

/-- Number of live slots in the subtree of node `p`. -/
def liveCountUnder (B : ℕ) (heap : Array (ℕ × ℕ)) (p : ℕ) : ℕ :=
  (slotsUnder B p).sum (fun k => (heap.getD (k + B - 1) (0,0)).2)

theorem slotsUnder_leaf (B k0 : ℕ) (hB : 1 ≤ B) (hk0 : k0 < B) :
    slotsUnder B (k0 + B - 1) = {k0} := by
  ext k
  simp only [slotsUnder, Finset.mem_filter, Finset.mem_range, Finset.mem_singleton]
  constructor
  · rintro ⟨hk, hd⟩
    rcases hd with he | hmem
    · omega
    · exfalso
      have hne : k + B - 1 ≠ 0 := by
        intro h0
        rw [h0, ancChain_zero] at hmem
        simp at hmem
      have := mem_ancChain_le_parent (k + B - 1) (k0 + B - 1) hne hmem
      omega
  · intro h
    subst h
    exact ⟨hk0, descOf_self _⟩

theorem slotsUnder_internal (B p : ℕ) (hB : 1 ≤ B) (hp : p < B - 1) :
    slotsUnder B p = slotsUnder B (2*p+1) ∪ slotsUnder B (2*p+2) := by
  ext k
  simp only [slotsUnder, Finset.mem_union, Finset.mem_filter, Finset.mem_range]
  constructor
  · rintro ⟨hk, hd⟩
    have hne : k + B - 1 ≠ p := by omega
    rcases (descOf_child_iff p (k + B - 1) hne).mp hd with h | h
    · exact Or.inl ⟨hk, h⟩
    · exact Or.inr ⟨hk, h⟩
  · rintro (⟨hk, hd⟩ | ⟨hk, hd⟩)
    · exact ⟨hk, (descOf_child_iff p (k + B - 1) (by omega)).mpr (Or.inl hd)⟩
    · exact ⟨hk, (descOf_child_iff p (k + B - 1) (by omega)).mpr (Or.inr hd)⟩

theorem slotsUnder_disjoint (B p : ℕ) (hp : p < B - 1) :
    Disjoint (slotsUnder B (2*p+1)) (slotsUnder B (2*p+2)) := by
  rw [Finset.disjoint_left]
  intro k h1 h2
  simp only [slotsUnder, Finset.mem_filter, Finset.mem_range] at h1 h2
  have hl := h1.2
  have hr := h2.2
  rcases hl with he1 | hm1
  · rcases hr with he2 | hm2
    · omega
    · rw [← he1, ancChain_child p (2*p+1) (Or.inl rfl)] at hm2
      rcases List.mem_cons.mp hm2 with he | hm
      · omega
      · have := mem_ancChain_lt _ _ hm
        omega
  · rcases hr with he2 | hm2
    · rw [← he2, ancChain_child p (2*p+2) (Or.inr rfl)] at hm1
      rcases List.mem_cons.mp hm1 with he | hm
      · omega
      · have := mem_ancChain_lt _ _ hm
        omega
    · exact not_both_children_anc _ p hm1 hm2

theorem slotsUnder_root (B : ℕ) (hB : 2 ≤ B) :
    slotsUnder B 0 = Finset.range B := by
  ext k
  simp only [slotsUnder, Finset.mem_filter, Finset.mem_range]
  constructor
  · rintro ⟨hk, _⟩
    exact hk
  · intro hk
    refine ⟨hk, Or.inr (zero_mem_ancChain (k + B - 1) (by omega))⟩

theorem liveCountUnder_internal (B : ℕ) (heap : Array (ℕ × ℕ)) (p : ℕ)
    (hB : 1 ≤ B) (hp : p < B - 1) :
    liveCountUnder B heap p =
      liveCountUnder B heap (2*p+1) + liveCountUnder B heap (2*p+2) := by
  rw [liveCountUnder, slotsUnder_internal B p hB hp,
    Finset.sum_union (slotsUnder_disjoint B p hp)]
  rfl

theorem liveCountUnder_leaf (B k0 : ℕ) (heap : Array (ℕ × ℕ)) (hB : 1 ≤ B)
    (hk0 : k0 < B) :
    liveCountUnder B heap (k0 + B - 1) = (heap.getD (k0 + B - 1) (0,0)).2 := by
  rw [liveCountUnder, slotsUnder_leaf B k0 hB hk0, Finset.sum_singleton]

theorem liveCountUnder_congr (B : ℕ) (h1 h2 : Array (ℕ × ℕ)) (p : ℕ)
    (hagree : ∀ k, k ∈ slotsUnder B p → h1.getD (k + B - 1) (0,0) = h2.getD (k + B - 1) (0,0)) :
    liveCountUnder B h1 p = liveCountUnder B h2 p := by
  apply Finset.sum_congr rfl
  intro k hk
  rw [hagree k hk]

/-- Leaf discipline of a selection heap with `B` slots: slot `k`'s leaf
carries `first = k` and a 0/1 liveness flag. -/
def leafOK (B : ℕ) (heap : Array (ℕ × ℕ)) : Prop :=
  ∀ k, k < B →
    (heap.getD (k + B - 1) (0,0)).1 = k ∧ (heap.getD (k + B - 1) (0,0)).2 ≤ 1

/-- Validity of a `(first, second)` pair as the summary of node `p`:
`second` counts the live slots in `p`'s subtree, and when nonzero `first`
names a live slot of that subtree. -/
def pairOK (B : ℕ) (heap : Array (ℕ × ℕ)) (p : ℕ) (pr : ℕ × ℕ) : Prop :=
  pr.2 = liveCountUnder B heap p ∧
  (pr.2 ≠ 0 → pr.1 ∈ slotsUnder B p ∧ (heap.getD (pr.1 + B - 1) (0,0)).2 ≠ 0)

/-- Structural validity of one selection heap: leaf discipline plus every
internal node storing a valid summary pair. -/
def heapOKC (B : ℕ) (heap : Array (ℕ × ℕ)) : Prop :=
  leafOK B heap ∧ ∀ p, p < B - 1 → pairOK B heap p (heap.getD p (0,0))

theorem pairOK_of_leaves_eq (B : ℕ) (h1 h2 : Array (ℕ × ℕ)) (p : ℕ)
    (pr : ℕ × ℕ)
    (hagree : ∀ q, ¬ q < B - 1 → h1.getD q (0,0) = h2.getD q (0,0))
    (hB : 1 ≤ B) (h : pairOK B h1 p pr) : pairOK B h2 p pr := by
  obtain ⟨hc, hf⟩ := h
  constructor
  · rw [hc]
    apply liveCountUnder_congr
    intro k hk
    have hkB : k < B := by
      simp only [slotsUnder, Finset.mem_filter, Finset.mem_range] at hk
      exact hk.1
    exact hagree (k + B - 1) (by omega)
  · intro hne
    obtain ⟨hmem, hlive⟩ := hf hne
    have hkB : pr.1 < B := by
      simp only [slotsUnder, Finset.mem_filter, Finset.mem_range] at hmem
      exact hmem.1
    refine ⟨hmem, ?_⟩
    rw [← hagree (pr.1 + B - 1) (by omega)]
    exact hlive

theorem leaf_pairOK (B : ℕ) (heap : Array (ℕ × ℕ)) (hB : 1 ≤ B)
    (hleaf : leafOK B heap) (k0 : ℕ) (hk0 : k0 < B) :
    pairOK B heap (k0 + B - 1) (heap.getD (k0 + B - 1) (0,0)) := by
  constructor
  · rw [liveCountUnder_leaf B k0 heap hB hk0]
  · intro hne
    refine ⟨?_, ?_⟩
    · rw [slotsUnder_leaf B k0 hB hk0, (hleaf k0 hk0).1]
      exact Finset.mem_singleton_self k0
    · rw [(hleaf k0 hk0).1]
      exact hne

theorem combinePair_ok (lt : ℚ → ℚ → Bool) (buf : Array ℚ) (B : ℕ)
    (heap : Array (ℕ × ℕ)) (p : ℕ) (a b : ℕ × ℕ) (hB : 1 ≤ B)
    (hp : p < B - 1) (ha : pairOK B heap (2*p+1) a)
    (hb : pairOK B heap (2*p+2) b) :
    pairOK B heap p (combinePair lt buf a b) := by
  have hcount : (combinePair lt buf a b).2 = a.2 + b.2 := by
    rw [combinePair]
    split
    · rfl
    · split <;> rfl
  have hsum : liveCountUnder B heap p =
      liveCountUnder B heap (2*p+1) + liveCountUnder B heap (2*p+2) :=
    liveCountUnder_internal B heap p hB hp
  have hsub1 : slotsUnder B (2*p+1) ⊆ slotsUnder B p := by
    rw [slotsUnder_internal B p hB hp]
    exact Finset.subset_union_left
  have hsub2 : slotsUnder B (2*p+2) ⊆ slotsUnder B p := by
    rw [slotsUnder_internal B p hB hp]
    exact Finset.subset_union_right
  constructor
  · rw [hcount, hsum, ha.1, hb.1]
  · intro hne
    rw [hcount] at hne
    rw [combinePair]
    split
    · next hab =>
      split
      · obtain ⟨hmem, hlive⟩ := ha.2 hab.1
        exact ⟨hsub1 hmem, hlive⟩
      · obtain ⟨hmem, hlive⟩ := hb.2 hab.2
        exact ⟨hsub2 hmem, hlive⟩
    · next hab =>
      split
      · next hbne =>
        obtain ⟨hmem, hlive⟩ := hb.2 hbne
        exact ⟨hsub2 hmem, hlive⟩
      · next hbz =>
        have hbz' : b.2 = 0 := by omega
        have haz : a.2 ≠ 0 := by omega
        obtain ⟨hmem, hlive⟩ := ha.2 haz
        exact ⟨hsub1 hmem, hlive⟩

theorem updateLoop_go (lt : ℚ → ℚ → Bool) (buf : Array ℚ) (B : ℕ) (hB : 1 ≤ B)
    (heap0 : Array (ℕ × ℕ)) (hsz0 : 2*B - 1 ≤ heap0.size)
    (hleaf0 : leafOK B heap0)
    (h0node : ∀ q, q < B - 1 → pairOK B heap0 q (heap0.getD q (0,0)))
    (key0 : ℕ) (hkey0 : key0 < B) :
    ∀ fuel p h, p < fuel →
      (p = key0 + B - 1 ∨ p ∈ ancChain (key0 + B - 1)) →
      h.size = heap0.size →
      (∀ q, q < B - 1 → q ∉ ancChain p → pairOK B h q (h.getD q (0,0))) →
      (∀ q, q ∈ ancChain p → h.getD q (0,0) = heap0.getD q (0,0)) →
      (∀ q, ¬ q < B - 1 → q ≠ key0 + B - 1 → h.getD q (0,0) = heap0.getD q (0,0)) →
      ((h.getD (key0 + B - 1) (0,0)).1 = key0 ∧
        (h.getD (key0 + B - 1) (0,0)).2 ≤ 1) →
      ((∀ q, q < B - 1 →
          pairOK B (updateLoopF lt buf fuel h p) q
            ((updateLoopF lt buf fuel h p).getD q (0,0))) ∧
        (∀ q, ¬ q < B - 1 →
          (updateLoopF lt buf fuel h p).getD q (0,0) = h.getD q (0,0)) ∧
        (updateLoopF lt buf fuel h p).size = h.size) := by
  intro fuel
  induction fuel with
  | zero =>
    intro p h hpf
    omega
  | succ fuel ih =>
    intro p h hpf hpd hsz hA hB' hC hF
    -- leaf discipline of the current heap
    have hleafh : leafOK B h := by
      intro k hk
      rcases eq_or_ne k key0 with rfl | hkne
      · exact hF
      · rw [hC (k + B - 1) (by omega) (by omega)]
        exact hleaf0 k hk
    by_cases hp0 : p = 0
    · subst hp0
      simp only [updateLoopF, if_pos rfl]
      refine ⟨?_, fun q _ => rfl, rfl⟩
      intro q hq
      exact hA q hq (by simp [ancChain_zero])
    · -- bounds
      have hpub : p ≤ 2*B - 2 := by
        rcases hpd with he | hm
        · omega
        · have h1 := mem_ancChain_lt (key0 + B - 1) p hm
          omega
      have hB2 : 2 ≤ B := by omega
      have hq0lt : (p-1)/2 < B - 1 := by omega
      have hq0ltp : (p-1)/2 < p := by omega
      have hchild : p = 2*((p-1)/2)+1 ∨ p = 2*((p-1)/2)+2 := by omega
      have hchainp : ancChain p = (p-1)/2 :: ancChain ((p-1)/2) := ancChain_succ p hp0
      have hq0leaf : (p-1)/2 ∈ ancChain (key0 + B - 1) := by
        rcases hpd with he | hm
        · rw [he] at hchainp ⊢
          rw [ancChain_succ (key0 + B - 1) (by omega)]
          exact List.mem_cons_self _ _
        · exact parent_mem_ancChain _ p hm hp0
      have hq0chain : (p-1)/2 ∈ ancChain p := by
        rw [hchainp]
        exact List.mem_cons_self _ _
      -- both children of q0 carry valid pairs in h
      have hchildOK : ∀ c, (c = 2*((p-1)/2)+1 ∨ c = 2*((p-1)/2)+2) →
          pairOK B h c (h.getD c (0,0)) := by
        intro c hc
        have hcnot : c ∉ ancChain p := by
          intro hmem
          have := mem_ancChain_le_parent p c hp0 hmem
          omega
        by_cases hcb : c < B - 1
        · exact hA c hcb hcnot
        · have hcub : c ≤ 2*B - 2 := by omega
          have hkc : c - (B - 1) < B := by omega
          have hceq : c = (c - (B - 1)) + B - 1 := by omega
          rw [hceq]
          exact leaf_pairOK B h hB hleafh (c - (B - 1)) hkc
      have hparentOK : pairOK B h ((p-1)/2)
          (combinePair lt buf (h.getD (2*((p-1)/2)+1) (0,0))
            (h.getD (2*((p-1)/2)+2) (0,0))) := by
        refine combinePair_ok lt buf B h ((p-1)/2) _ _ hB hq0lt ?_ ?_
        · exact hchildOK _ (Or.inl rfl)
        · exact hchildOK _ (Or.inr rfl)
      simp only [updateLoopF, if_neg hp0]
      by_cases hbrk : h.getD ((p-1)/2) (0,0) =
          combinePair lt buf (h.getD (2*((p-1)/2)+1) (0,0))
            (h.getD (2*((p-1)/2)+2) (0,0))
      · -- early break: the stored parent equals the recomputed one
        rw [if_pos hbrk]
        -- all counts are then unchanged, so leaf0's liveness is unchanged
        have hq0old : h.getD ((p-1)/2) (0,0) = heap0.getD ((p-1)/2) (0,0) :=
          hB' _ hq0chain
        have hcnt : liveCountUnder B h ((p-1)/2) =
            liveCountUnder B heap0 ((p-1)/2) := by
          have h1 := hparentOK.1
          have h2 := (h0node _ hq0lt).1
          rw [← hbrk] at h1
          rw [hq0old] at h1
          omega
        have hkey0mem : key0 ∈ slotsUnder B ((p-1)/2) := by
          simp only [slotsUnder, Finset.mem_filter, Finset.mem_range]
          exact ⟨hkey0, Or.inr hq0leaf⟩
        have hleafeq : h.getD (key0 + B - 1) (0,0) =
            heap0.getD (key0 + B - 1) (0,0) := by
          have hsplit1 := Finset.add_sum_erase _
            (fun k => (h.getD (k + B - 1) (0,0)).2) hkey0mem
          have hsplit2 := Finset.add_sum_erase _
            (fun k => (heap0.getD (k + B - 1) (0,0)).2) hkey0mem
          have herase : ∀ k ∈ (slotsUnder B ((p-1)/2)).erase key0,
              (h.getD (k + B - 1) (0,0)).2 = (heap0.getD (k + B - 1) (0,0)).2 := by
            intro k hk
            have hkne : k ≠ key0 := (Finset.mem_erase.mp hk).1
            have hkB : k < B := by
              have := (Finset.mem_erase.mp hk).2
              simp only [slotsUnder, Finset.mem_filter, Finset.mem_range] at this
              exact this.1
            rw [hC (k + B - 1) (by omega) (by omega)]
          have hsums : ((slotsUnder B ((p-1)/2)).erase key0).sum
                (fun k => (h.getD (k + B - 1) (0,0)).2) =
              ((slotsUnder B ((p-1)/2)).erase key0).sum
                (fun k => (heap0.getD (k + B - 1) (0,0)).2) :=
            Finset.sum_congr rfl herase
          have hsec : (h.getD (key0 + B - 1) (0,0)).2 =
              (heap0.getD (key0 + B - 1) (0,0)).2 := by
            have hc1 : liveCountUnder B h ((p-1)/2) =
                (h.getD (key0 + B - 1) (0,0)).2 +
                  ((slotsUnder B ((p-1)/2)).erase key0).sum
                    (fun k => (h.getD (k + B - 1) (0,0)).2) := by
              rw [liveCountUnder, ← hsplit1]
            have hc2 : liveCountUnder B heap0 ((p-1)/2) =
                (heap0.getD (key0 + B - 1) (0,0)).2 +
                  ((slotsUnder B ((p-1)/2)).erase key0).sum
                    (fun k => (heap0.getD (k + B - 1) (0,0)).2) := by
              rw [liveCountUnder, ← hsplit2]
            omega
          have hfst : (h.getD (key0 + B - 1) (0,0)).1 =
              (heap0.getD (key0 + B - 1) (0,0)).1 := by
            rw [hF.1, (hleaf0 key0 hkey0).1]
          exact Prod.ext hfst hsec
        have hAgreeAll : ∀ q, ¬ q < B - 1 →
            h.getD q (0,0) = heap0.getD q (0,0) := by
          intro q hq
          rcases eq_or_ne q (key0 + B - 1) with rfl | hqne
          · exact hleafeq
          · exact hC q hq hqne
        refine ⟨?_, fun q _ => rfl, rfl⟩
        intro q hq
        by_cases hqanc : q ∈ ancChain p
        · rw [hchainp] at hqanc
          rcases List.mem_cons.mp hqanc with rfl | htail
          · rw [hbrk]
            exact hparentOK
          · rw [hB' q (by rw [hchainp]; exact List.mem_cons_of_mem _ htail)]
            refine pairOK_of_leaves_eq B heap0 h q _
              (fun q2 hq2 => (hAgreeAll q2 hq2).symm) hB ?_
            exact h0node q hq
        · exact hA q hq hqanc
      · -- no break: store the recomputed parent and continue from it
        rw [if_neg hbrk]
        have hq0sz : (p-1)/2 < h.size := by omega
        have hstep := ih ((p-1)/2)
          (h.setD ((p-1)/2) (combinePair lt buf (h.getD (2*((p-1)/2)+1) (0,0))
            (h.getD (2*((p-1)/2)+2) (0,0))))
          (by omega) (Or.inr hq0leaf) (by rw [size_setD]; exact hsz)
          ?_ ?_ ?_ ?_
        · obtain ⟨hg1, hg2, hg3⟩ := hstep
          refine ⟨hg1, ?_, ?_⟩
          · intro q hq
            rw [hg2 q hq, getD_setD_ne _ _ _ _ _ (by omega)]
          · rw [hg3, size_setD]
        · -- off-chain validity for the new state
          intro q hq hqn
          rcases eq_or_ne q ((p-1)/2) with rfl | hqne
          · rw [getD_setD_self _ _ _ _ hq0sz]
            refine pairOK_of_leaves_eq B h _ _ _ ?_ hB hparentOK
            intro q2 hq2
            rw [getD_setD_ne _ _ _ _ _ (by omega)]
          · have hqnp : q ∉ ancChain p := by
              rw [hchainp]
              intro hmem
              rcases List.mem_cons.mp hmem with he | ht
              · exact hqne he
              · exact hqn ht
            rw [getD_setD_ne _ _ _ _ _ (Ne.symm hqne)]
            refine pairOK_of_leaves_eq B h _ _ _ ?_ hB (hA q hq hqnp)
            intro q2 hq2
            rw [getD_setD_ne _ _ _ _ _ (by omega)]
        · -- untouched ancestors still hold their old pairs
          intro q hq
          have hqlt := mem_ancChain_lt _ _ hq
          rw [getD_setD_ne _ _ _ _ _ (by omega)]
          exact hB' q (by rw [hchainp]; exact List.mem_cons_of_mem _ hq)
        · -- leaves other than leaf0 unchanged
          intro q hq hqne
          rw [getD_setD_ne _ _ _ _ _ (by omega)]
          exact hC q hq hqne
        · -- leaf0's own entry unchanged
          rw [getD_setD_ne _ _ _ _ _ (by omega)]
          exact hF

theorem pairOK_of_subtree_eq (B : ℕ) (h1 h2 : Array (ℕ × ℕ)) (p : ℕ) (pr : ℕ × ℕ)
    (hagree : ∀ k, k ∈ slotsUnder B p →
      h1.getD (k + B - 1) (0,0) = h2.getD (k + B - 1) (0,0))
    (h : pairOK B h1 p pr) : pairOK B h2 p pr := by
  obtain ⟨hc, hf⟩ := h
  refine ⟨?_, ?_⟩
  · rw [hc]
    exact liveCountUnder_congr B h1 h2 p hagree
  · intro hne
    obtain ⟨hmem, hlive⟩ := hf hne
    refine ⟨hmem, ?_⟩
    rw [← hagree pr.1 hmem]
    exact hlive

theorem slotsUnder_root_all (B : ℕ) (hB : 1 ≤ B) : slotsUnder B 0 = Finset.range B := by
  ext k
  simp only [slotsUnder, Finset.mem_filter, Finset.mem_range]
  constructor
  · rintro ⟨hk, _⟩
    exact hk
  · intro hk
    refine ⟨hk, ?_⟩
    by_cases h0 : k + B - 1 = 0
    · exact Or.inl h0.symm
    · exact Or.inr (zero_mem_ancChain _ h0)

/-- The root (node 0) of a structurally valid selection heap carries a valid
summary pair; for `B = 1` the root is itself the unique leaf. -/
theorem rootOK_pair (B : ℕ) (hB : 1 ≤ B) (heap : Array (ℕ × ℕ)) (hok : heapOKC B heap) :
    pairOK B heap 0 (heap.getD 0 (0,0)) := by
  by_cases h1 : 0 < B - 1
  · exact hok.2 0 h1
  · have hres := leaf_pairOK B heap hB hok.1 0 (by omega)
    have he : 0 + B - 1 = 0 := by omega
    rw [he] at hres
    exact hres

/-- Changing a single leaf changes the root count by exactly the change in
that leaf's liveness flag. -/
theorem root_change (B : ℕ) (hB : 1 ≤ B) (h1 h2 : Array (ℕ × ℕ))
    (hok1 : heapOKC B h1) (hok2 : heapOKC B h2) (key : ℕ) (hkey : key < B)
    (hothers : ∀ k, k < B → k ≠ key →
      h2.getD (k + B - 1) (0,0) = h1.getD (k + B - 1) (0,0)) :
    (h2.getD 0 (0,0)).2 + (h1.getD (key + B - 1) (0,0)).2 =
      (h1.getD 0 (0,0)).2 + (h2.getD (key + B - 1) (0,0)).2 := by
  rw [(rootOK_pair B hB h1 hok1).1, (rootOK_pair B hB h2 hok2).1]
  unfold liveCountUnder
  rw [slotsUnder_root_all B hB]
  have hmem : key ∈ Finset.range B := Finset.mem_range.mpr hkey
  rw [← Finset.add_sum_erase _ (fun k => (h2.getD (k + B - 1) (0,0)).2) hmem,
      ← Finset.add_sum_erase _ (fun k => (h1.getD (k + B - 1) (0,0)).2) hmem]
  have hsums : ((Finset.range B).erase key).sum (fun k => (h2.getD (k + B - 1) (0,0)).2) =
      ((Finset.range B).erase key).sum (fun k => (h1.getD (k + B - 1) (0,0)).2) := by
    refine Finset.sum_congr rfl ?_
    intro k hk
    have hkne : k ≠ key := (Finset.mem_erase.mp hk).1
    have hkB : k < B := Finset.mem_range.mp (Finset.mem_erase.mp hk).2
    rw [hothers k hkB hkne]
  omega

/-- Setting one leaf's liveness flag and repairing upward from it restores
full structural validity and leaves every other leaf untouched. -/
theorem updateFromHeap_ok (lt : ℚ → ℚ → Bool) (buf : Array ℚ) (B : ℕ) (hB : 1 ≤ B)
    (heap : Array (ℕ × ℕ)) (hsz : 2*B - 1 ≤ heap.size) (hok : heapOKC B heap)
    (key : ℕ) (hkey : key < B) (v : ℕ) (hv : v ≤ 1) (res : Array (ℕ × ℕ))
    (hres : res = updateLoopF lt buf (key + B) (setSecond heap (key + B - 1) v)
      (key + B - 1)) :
    heapOKC B res ∧ res.size = heap.size ∧
    (∀ k, k < B → k ≠ key → res.getD (k + B - 1) (0,0) = heap.getD (k + B - 1) (0,0)) ∧
    res.getD (key + B - 1) (0,0) = (key, v) := by
  subst hres
  have hleafsz : key + B - 1 < heap.size := by omega
  have hh1size : (setSecond heap (key + B - 1) v).size = heap.size := by
    rw [setSecond, size_setD]
  have hh1leaf : (setSecond heap (key + B - 1) v).getD (key + B - 1) (0,0) = (key, v) := by
    rw [setSecond, getD_setD_self _ _ _ _ hleafsz, (hok.1 key hkey).1]
  have hh1ne : ∀ j, j ≠ key + B - 1 →
      (setSecond heap (key + B - 1) v).getD j (0,0) = heap.getD j (0,0) := by
    intro j hj
    rw [setSecond, getD_setD_ne _ _ _ _ _ (Ne.symm hj)]
  have hA : ∀ q, q < B - 1 → q ∉ ancChain (key + B - 1) →
      pairOK B (setSecond heap (key + B - 1) v) q
        ((setSecond heap (key + B - 1) v).getD q (0,0)) := by
    intro q hq hqanc
    rw [hh1ne q (by omega)]
    refine pairOK_of_subtree_eq B heap _ q _ ?_ (hok.2 q hq)
    intro k hk
    have hkB : k < B := by
      simp only [slotsUnder, Finset.mem_filter, Finset.mem_range] at hk
      exact hk.1
    have hd : descOf q (k + B - 1) := by
      simp only [slotsUnder, Finset.mem_filter] at hk
      exact hk.2
    have hkne : k + B - 1 ≠ key + B - 1 := by
      intro he
      rw [he] at hd
      rcases hd with he2 | hm
      · omega
      · exact hqanc hm
    exact (hh1ne (k + B - 1) hkne).symm
  have hBanc : ∀ q, q ∈ ancChain (key + B - 1) →
      (setSecond heap (key + B - 1) v).getD q (0,0) = heap.getD q (0,0) := by
    intro q hq
    have := mem_ancChain_lt _ _ hq
    exact hh1ne q (by omega)
  have hC : ∀ q, ¬ q < B - 1 → q ≠ key + B - 1 →
      (setSecond heap (key + B - 1) v).getD q (0,0) = heap.getD q (0,0) := by
    intro q _ hq
    exact hh1ne q hq
  have hF : ((setSecond heap (key + B - 1) v).getD (key + B - 1) (0,0)).1 = key ∧
      ((setSecond heap (key + B - 1) v).getD (key + B - 1) (0,0)).2 ≤ 1 := by
    rw [hh1leaf]
    exact ⟨rfl, hv⟩
  obtain ⟨hg1, hg2, hg3⟩ := updateLoop_go lt buf B hB heap hsz hok.1 hok.2 key hkey
    (key + B) (key + B - 1) (setSecond heap (key + B - 1) v) (by omega) (Or.inl rfl)
    (by rw [hh1size]) hA hBanc hC hF
  refine ⟨⟨?_, hg1⟩, ?_, ?_, ?_⟩
  · intro k hk
    have hne : ¬ k + B - 1 < B - 1 := by omega
    rw [hg2 _ hne]
    rcases eq_or_ne k key with rfl | hkne
    · rw [hh1leaf]
      exact ⟨rfl, hv⟩
    · rw [hh1ne _ (by omega)]
      exact hok.1 k hk
  · rw [hg3, hh1size]
  · intro k hk hkne
    rw [hg2 _ (by omega), hh1ne _ (by omega)]
  · rw [hg2 _ (by omega), hh1leaf]

/-- Global invariant of `SlidingNewImage` with `B` buffer slots: buffer size,
heap sizes, structural validity of both selection heaps, and exclusivity
(each slot is live in at most one heap). -/
def SlidingOK (B : ℕ) (s : Sliding) : Prop :=
  s.buf.size = B ∧
  2*B - 1 ≤ s.minHeap.size ∧ 2*B - 1 ≤ s.maxHeap.size ∧
  heapOKC B s.minHeap ∧ heapOKC B s.maxHeap ∧
  ∀ k, k < B →
    (s.minHeap.getD (k + B - 1) (0,0)).2 = 0 ∨ (s.maxHeap.getD (k + B - 1) (0,0)).2 = 0

/-- The common shape of all four mutating operations: set slot `key`'s
min-liveness to `a` and max-liveness to `b` (at most one of them 1), maybe
replace the buffer, and repair both heaps from that leaf. -/
theorem slidingStep_ok (B : ℕ) (hB : 1 ≤ B) (s : Sliding) (hok : SlidingOK B s)
    (key : ℕ) (hkey : key < B) (buf' : Array ℚ) (hbsz : buf'.size = B)
    (a b : ℕ) (ha : a ≤ 1) (hb : b ≤ 1) (hab : a = 0 ∨ b = 0) (s' : Sliding)
    (hs' : s' = Sliding.updateFrom
      ⟨buf', setSecond s.minHeap (key + B - 1) a, setSecond s.maxHeap (key + B - 1) b⟩
      (key + B - 1)) :
    SlidingOK B s' ∧
    (∀ k, k < B → k ≠ key →
      s'.minHeap.getD (k + B - 1) (0,0) = s.minHeap.getD (k + B - 1) (0,0) ∧
      s'.maxHeap.getD (k + B - 1) (0,0) = s.maxHeap.getD (k + B - 1) (0,0)) ∧
    s'.minHeap.getD (key + B - 1) (0,0) = (key, a) ∧
    s'.maxHeap.getD (key + B - 1) (0,0) = (key, b) := by
  obtain ⟨hbuf, hmsz, hxsz, hmok, hxok, hexcl⟩ := hok
  have hfe : key + B - 1 + 1 = key + B := by omega
  have hmin : s'.minHeap = updateLoopF (fun x y => decide (x < y)) buf' (key + B)
      (setSecond s.minHeap (key + B - 1) a) (key + B - 1) := by
    rw [hs', ← hfe]
    rfl
  have hmax : s'.maxHeap = updateLoopF (fun x y => decide (y < x)) buf' (key + B)
      (setSecond s.maxHeap (key + B - 1) b) (key + B - 1) := by
    rw [hs', ← hfe]
    rfl
  have hbuf' : s'.buf = buf' := by
    rw [hs']
    rfl
  obtain ⟨hok1, hsz1, hoth1, hleaf1⟩ := updateFromHeap_ok (fun x y => decide (x < y))
    buf' B hB s.minHeap hmsz hmok key hkey a ha _ hmin
  obtain ⟨hok2, hsz2, hoth2, hleaf2⟩ := updateFromHeap_ok (fun x y => decide (y < x))
    buf' B hB s.maxHeap hxsz hxok key hkey b hb _ hmax
  refine ⟨⟨by rw [hbuf', hbsz], by rw [hsz1]; exact hmsz, by rw [hsz2]; exact hxsz,
    hok1, hok2, ?_⟩, ?_, hleaf1, hleaf2⟩
  · intro k hk
    rcases eq_or_ne k key with rfl | hkne
    · rw [hleaf1, hleaf2]
      rcases hab with h | h
      · exact Or.inl h
      · exact Or.inr h
    · rw [hoth1 k hk hkne, hoth2 k hk hkne]
      exact hexcl k hk
  · intro k hk hkne
    exact ⟨hoth1 k hk hkne, hoth2 k hk hkne⟩

theorem insert_ok (B : ℕ) (hB : 1 ≤ B) (s : Sliding) (hok : SlidingOK B s)
    (key : ℕ) (hkey : key < B) (val : ℚ) : SlidingOK B (s.insert key val) := by
  have hbsz : (s.buf.setD key val).size = B := by rw [size_setD, hok.1]
  simp only [Sliding.insert]
  split
  · refine (slidingStep_ok B hB s hok key hkey (s.buf.setD key val) hbsz 0 1
      (by omega) (by omega) (Or.inl rfl) _ ?_).1
    rw [hok.1]
  · refine (slidingStep_ok B hB s hok key hkey (s.buf.setD key val) hbsz 1 0
      (by omega) (by omega) (Or.inr rfl) _ ?_).1
    rw [hok.1]

theorem remove_ok (B : ℕ) (hB : 1 ≤ B) (s : Sliding) (hok : SlidingOK B s)
    (key : ℕ) (hkey : key < B) : SlidingOK B (s.remove key) := by
  simp only [Sliding.remove]
  refine (slidingStep_ok B hB s hok key hkey s.buf hok.1 0 0
    (by omega) (by omega) (Or.inl rfl) _ ?_).1
  rw [hok.1]

/-- One iteration of the first `rebalance` loop: moving the min heap's
pointed slot to the max heap decrements the min root count and increments
the max root count. -/
theorem moveMin_step (B : ℕ) (hB : 1 ≤ B) (s : Sliding) (hok : SlidingOK B s)
    (hne : (s.minHeap.getD 0 (0,0)).2 ≠ 0) (s' : Sliding)
    (hs' : s' = Sliding.updateFrom
      ⟨s.buf, setSecond s.minHeap ((s.minHeap.getD 0 (0,0)).1 + (s.buf.size - 1)) 0,
              setSecond s.maxHeap ((s.minHeap.getD 0 (0,0)).1 + (s.buf.size - 1)) 1⟩
      ((s.minHeap.getD 0 (0,0)).1 + (s.buf.size - 1))) :
    SlidingOK B s' ∧
    (s'.minHeap.getD 0 (0,0)).2 = (s.minHeap.getD 0 (0,0)).2 - 1 ∧
    (s'.maxHeap.getD 0 (0,0)).2 = (s.maxHeap.getD 0 (0,0)).2 + 1 := by
  obtain ⟨hptr, hlive⟩ := (rootOK_pair B hB s.minHeap hok.2.2.2.1).2 hne
  have hkey : (s.minHeap.getD 0 (0,0)).1 < B := by
    simp only [slotsUnder, Finset.mem_filter, Finset.mem_range] at hptr
    exact hptr.1
  have hidx : (s.minHeap.getD 0 (0,0)).1 + (s.buf.size - 1) =
      (s.minHeap.getD 0 (0,0)).1 + B - 1 := by
    rw [hok.1]
    omega
  rw [hidx] at hs'
  have hminleaf : (s.minHeap.getD ((s.minHeap.getD 0 (0,0)).1 + B - 1) (0,0)).2 = 1 := by
    have := (hok.2.2.2.1.1 _ hkey).2
    omega
  have hmaxleaf : (s.maxHeap.getD ((s.minHeap.getD 0 (0,0)).1 + B - 1) (0,0)).2 = 0 := by
    rcases hok.2.2.2.2.2 _ hkey with h | h
    · omega
    · exact h
  obtain ⟨hok', hoth, hleafm, hleafx⟩ := slidingStep_ok B hB s hok _ hkey s.buf hok.1
    0 1 (by omega) (by omega) (Or.inl rfl) s' hs'
  refine ⟨hok', ?_, ?_⟩
  · have hrc := root_change B hB s.minHeap s'.minHeap hok.2.2.2.1 hok'.2.2.2.1 _ hkey
      (fun k hk hkne => (hoth k hk hkne).1)
    rw [hminleaf, hleafm] at hrc
    omega
  · have hrc := root_change B hB s.maxHeap s'.maxHeap hok.2.2.2.2.1 hok'.2.2.2.2.1 _ hkey
      (fun k hk hkne => (hoth k hk hkne).2)
    rw [hmaxleaf, hleafx] at hrc
    omega

/-- One iteration of the second `rebalance` loop: moving the max heap's
pointed slot to the min heap increments the min root count and decrements
the max root count. -/
theorem moveMax_step (B : ℕ) (hB : 1 ≤ B) (s : Sliding) (hok : SlidingOK B s)
    (hne : (s.maxHeap.getD 0 (0,0)).2 ≠ 0) (s' : Sliding)
    (hs' : s' = Sliding.updateFrom
      ⟨s.buf, setSecond s.minHeap ((s.maxHeap.getD 0 (0,0)).1 + (s.buf.size - 1)) 1,
              setSecond s.maxHeap ((s.maxHeap.getD 0 (0,0)).1 + (s.buf.size - 1)) 0⟩
      ((s.maxHeap.getD 0 (0,0)).1 + (s.buf.size - 1))) :
    SlidingOK B s' ∧
    (s'.minHeap.getD 0 (0,0)).2 = (s.minHeap.getD 0 (0,0)).2 + 1 ∧
    (s'.maxHeap.getD 0 (0,0)).2 = (s.maxHeap.getD 0 (0,0)).2 - 1 := by
  obtain ⟨hptr, hlive⟩ := (rootOK_pair B hB s.maxHeap hok.2.2.2.2.1).2 hne
  have hkey : (s.maxHeap.getD 0 (0,0)).1 < B := by
    simp only [slotsUnder, Finset.mem_filter, Finset.mem_range] at hptr
    exact hptr.1
  have hidx : (s.maxHeap.getD 0 (0,0)).1 + (s.buf.size - 1) =
      (s.maxHeap.getD 0 (0,0)).1 + B - 1 := by
    rw [hok.1]
    omega
  rw [hidx] at hs'
  have hmaxleaf : (s.maxHeap.getD ((s.maxHeap.getD 0 (0,0)).1 + B - 1) (0,0)).2 = 1 := by
    have := (hok.2.2.2.2.1.1 _ hkey).2
    omega
  have hminleaf : (s.minHeap.getD ((s.maxHeap.getD 0 (0,0)).1 + B - 1) (0,0)).2 = 0 := by
    rcases hok.2.2.2.2.2 _ hkey with h | h
    · exact h
    · omega
  obtain ⟨hok', hoth, hleafm, hleafx⟩ := slidingStep_ok B hB s hok _ hkey s.buf hok.1
    1 0 (by omega) (by omega) (Or.inr rfl) s' hs'
  refine ⟨hok', ?_, ?_⟩
  · have hrc := root_change B hB s.minHeap s'.minHeap hok.2.2.2.1 hok'.2.2.2.1 _ hkey
      (fun k hk hkne => (hoth k hk hkne).1)
    rw [hminleaf, hleafm] at hrc
    omega
  · have hrc := root_change B hB s.maxHeap s'.maxHeap hok.2.2.2.2.1 hok'.2.2.2.2.1 _ hkey
      (fun k hk hkne => (hoth k hk hkne).2)
    rw [hmaxleaf, hleafx] at hrc
    omega

theorem heapSizeLoop_ge : ∀ fuel target h, target ≤ h + fuel →
    target ≤ heapSizeLoop fuel target h := by
  intro fuel
  induction fuel with
  | zero =>
    intro target h hh
    simp only [heapSizeLoop]
    omega
  | succ fuel ih =>
    intro target h hh
    simp only [heapSizeLoop]
    split
    · exact ih target (h + h + 1) (by omega)
    · next hc => omega

theorem slidingHeapSize_ge (B : ℕ) : 2*B - 1 ≤ slidingHeapSize B := by
  apply heapSizeLoop_ge
  omega

theorem mkLeaves_size (B : ℕ) (h0 : Array (ℕ × ℕ)) :
    ∀ n, ((List.range n).foldl
      (fun (a : Array (ℕ × ℕ)) i => a.setD (i + B - 1) (i, 0)) h0).size = h0.size := by
  intro n
  induction n with
  | zero => rfl
  | succ n ih =>
    rw [List.range_succ, List.foldl_append, List.foldl_cons, List.foldl_nil,
      size_setD, ih]

theorem mkLeaves_getD (B : ℕ) (hB : 1 ≤ B) (h0 : Array (ℕ × ℕ)) :
    ∀ n j, j < h0.size →
      ((List.range n).foldl
        (fun (a : Array (ℕ × ℕ)) i => a.setD (i + B - 1) (i, 0)) h0).getD j (0,0) =
      if B - 1 ≤ j ∧ j < n + B - 1 then (j - (B - 1), 0) else h0.getD j (0,0) := by
  intro n
  induction n with
  | zero =>
    intro j hj
    rw [if_neg (by omega)]
    rfl
  | succ n ih =>
    intro j hj
    rw [List.range_succ, List.foldl_append, List.foldl_cons, List.foldl_nil]
    rcases eq_or_ne j (n + B - 1) with rfl | hne
    · rw [getD_setD_self _ _ _ _ (by rw [mkLeaves_size]; exact hj), if_pos (by omega)]
      have he : n + B - 1 - (B - 1) = n := by omega
      rw [he]
    · rw [getD_setD_ne _ _ _ _ _ hne.symm, ih j hj]
      by_cases hc : B - 1 ≤ j ∧ j < n + B - 1
      · rw [if_pos hc, if_pos (by omega)]
      · rw [if_neg hc, if_neg (by omega)]

theorem mkSliding_getD (B : ℕ) (hB : 1 ≤ B) :
    ∀ j, j < slidingHeapSize B →
      (mkSliding B).minHeap.getD j (0,0) =
        if B - 1 ≤ j ∧ j < B + B - 1 then (j - (B - 1), 0) else (0,0) := by
  intro j hj
  simp only [mkSliding]
  rw [mkLeaves_getD B hB _ B j (by rw [Array.size_mkArray]; exact hj)]
  by_cases hc : B - 1 ≤ j ∧ j < B + B - 1
  · rw [if_pos hc, if_pos hc]
  · rw [if_neg hc, if_neg hc, getD_mkArray _ _ _ _ hj]

theorem mkSliding_minHeap_size (B : ℕ) :
    (mkSliding B).minHeap.size = slidingHeapSize B := by
  simp only [mkSliding]
  rw [mkLeaves_size, Array.size_mkArray]

theorem mkSliding_heaps_eq (B : ℕ) : (mkSliding B).maxHeap = (mkSliding B).minHeap := rfl

theorem mkSliding_heap_ok (B : ℕ) (hB : 1 ≤ B) : heapOKC B (mkSliding B).minHeap := by
  have hsz := slidingHeapSize_ge B
  constructor
  · intro k hk
    rw [mkSliding_getD B hB (k + B - 1) (by omega), if_pos (by omega)]
    constructor
    · show k + B - 1 - (B - 1) = k
      omega
    · show (0 : ℕ) ≤ 1
      omega
  · intro p hp
    rw [mkSliding_getD B hB p (by omega), if_neg (by omega)]
    constructor
    · show (0 : ℕ) = liveCountUnder B (mkSliding B).minHeap p
      rw [liveCountUnder]
      symm
      apply Finset.sum_eq_zero
      intro k hk
      have hkB : k < B := by
        simp only [slotsUnder, Finset.mem_filter, Finset.mem_range] at hk
        exact hk.1
      rw [mkSliding_getD B hB (k + B - 1) (by omega), if_pos (by omega)]
    · intro hne
      exact absurd rfl hne

theorem mkSliding_ok (B : ℕ) (hB : 1 ≤ B) : SlidingOK B (mkSliding B) := by
  have hsz := slidingHeapSize_ge B
  have hmsz : 2*B - 1 ≤ (mkSliding B).minHeap.size := by
    rw [mkSliding_minHeap_size]
    exact hsz
  refine ⟨?_, hmsz, ?_, mkSliding_heap_ok B hB, ?_, ?_⟩
  · simp only [mkSliding]
    exact Array.size_mkArray _ _
  · rw [mkSliding_heaps_eq]
    exact hmsz
  · rw [mkSliding_heaps_eq]
    exact mkSliding_heap_ok B hB
  · intro k hk
    left
    rw [mkSliding_getD B hB (k + B - 1) (by omega), if_pos (by omega)]

/-- The first `rebalance` loop drives the min-heap root count down to
`desired` (if it was above it), preserving validity and the total count. -/
theorem moveMinToMax_spec (B : ℕ) (hB : 1 ≤ B) (desired : ℤ) (hd : 0 ≤ desired) :
    ∀ (fuel : ℕ) (s : Sliding), SlidingOK B s →
      ((s.minHeap.getD 0 (0,0)).2 : ℤ) - desired ≤ (fuel : ℤ) →
      SlidingOK B (moveMinToMax fuel desired s) ∧
      (((moveMinToMax fuel desired s).minHeap.getD 0 (0,0)).2 : ℤ) =
        min ((s.minHeap.getD 0 (0,0)).2 : ℤ) desired ∧
      ((moveMinToMax fuel desired s).minHeap.getD 0 (0,0)).2 +
          ((moveMinToMax fuel desired s).maxHeap.getD 0 (0,0)).2 =
        (s.minHeap.getD 0 (0,0)).2 + (s.maxHeap.getD 0 (0,0)).2 := by
  intro fuel
  induction fuel with
  | zero =>
    intro s hok hf
    simp only [moveMinToMax]
    exact ⟨hok, (min_eq_left (by omega)).symm, by trivial⟩
  | succ fuel ih =>
    intro s hok hf
    simp only [moveMinToMax]
    by_cases hgt : ((s.minHeap.getD 0 (0,0)).2 : ℤ) > desired
    · rw [if_pos hgt]
      have hne : (s.minHeap.getD 0 (0,0)).2 ≠ 0 := by omega
      obtain ⟨hok', hm', hx'⟩ := moveMin_step B hB s hok hne _ rfl
      obtain ⟨hg1, hg2, hg3⟩ := ih _ hok' (by rw [hm']; omega)
      refine ⟨hg1, ?_, ?_⟩
      · rw [hg2, hm']
        have h1 : (s.minHeap.getD 0 (0,0)).2 ≠ 0 := hne
        rw [min_eq_right (by omega), min_eq_right (by omega)]
      · rw [hg3, hm', hx']
        omega
    · rw [if_neg hgt]
      exact ⟨hok, (min_eq_left (by omega)).symm, by trivial⟩

/-- The second `rebalance` loop drives the min-heap root count up to
`desired` (if it was below it), provided `desired` is at most the total
minus one, preserving validity and the total count. -/
theorem moveMaxToMin_spec (B : ℕ) (hB : 1 ≤ B) (desired : ℤ) :
    ∀ (fuel : ℕ) (s : Sliding), SlidingOK B s →
      desired + 1 ≤ ((s.minHeap.getD 0 (0,0)).2 : ℤ) + ((s.maxHeap.getD 0 (0,0)).2 : ℤ) →
      desired - ((s.minHeap.getD 0 (0,0)).2 : ℤ) ≤ (fuel : ℤ) →
      SlidingOK B (moveMaxToMin fuel desired s) ∧
      (((moveMaxToMin fuel desired s).minHeap.getD 0 (0,0)).2 : ℤ) =
        max ((s.minHeap.getD 0 (0,0)).2 : ℤ) desired ∧
      ((moveMaxToMin fuel desired s).minHeap.getD 0 (0,0)).2 +
          ((moveMaxToMin fuel desired s).maxHeap.getD 0 (0,0)).2 =
        (s.minHeap.getD 0 (0,0)).2 + (s.maxHeap.getD 0 (0,0)).2 := by
  intro fuel
  induction fuel with
  | zero =>
    intro s hok htot hf
    simp only [moveMaxToMin]
    exact ⟨hok, (max_eq_left (by omega)).symm, by trivial⟩
  | succ fuel ih =>
    intro s hok htot hf
    simp only [moveMaxToMin]
    by_cases hlt : ((s.minHeap.getD 0 (0,0)).2 : ℤ) < desired
    · rw [if_pos hlt]
      have hne : (s.maxHeap.getD 0 (0,0)).2 ≠ 0 := by omega
      obtain ⟨hok', hm', hx'⟩ := moveMax_step B hB s hok hne _ rfl
      obtain ⟨hg1, hg2, hg3⟩ := ih _ hok' (by rw [hm', hx']; omega) (by rw [hm']; omega)
      refine ⟨hg1, ?_, ?_⟩
      · rw [hg2, hm']
        rw [max_eq_right (by omega), max_eq_right (by omega)]
      · rw [hg3, hm', hx']
        omega
    · rw [if_neg hlt]
      exact ⟨hok, (max_eq_left (by omega)).symm, by trivial⟩

/-- `rebalance(percentile)` with enough fuel: afterwards the min-heap root
count equals the code's clamped truncated target, and the total is
preserved. -/
theorem rebalance_spec (B : ℕ) (hB : 1 ≤ B) (s : Sliding) (hok : SlidingOK B s)
    (p : ℚ) (fuel : ℕ)
    (hT1 : 1 ≤ (s.maxHeap.getD 0 (0,0)).2 + (s.minHeap.getD 0 (0,0)).2)
    (hfuel : (s.maxHeap.getD 0 (0,0)).2 + (s.minHeap.getD 0 (0,0)).2 ≤ fuel) :
    SlidingOK B (s.rebalance p fuel) ∧
    (((s.rebalance p fuel).minHeap.getD 0 (0,0)).2 : ℤ) =
      clampZ (Int.tdiv
        ((((s.maxHeap.getD 0 (0,0)).2 + (s.minHeap.getD 0 (0,0)).2 : ℕ) : ℤ) *
          ((p.den : ℤ) - p.num)) (p.den : ℤ)) 0
        ((((s.maxHeap.getD 0 (0,0)).2 + (s.minHeap.getD 0 (0,0)).2 : ℕ) : ℤ) - 1) ∧
    ((s.rebalance p fuel).minHeap.getD 0 (0,0)).2 +
        ((s.rebalance p fuel).maxHeap.getD 0 (0,0)).2 =
      (s.minHeap.getD 0 (0,0)).2 + (s.maxHeap.getD 0 (0,0)).2 := by
  simp only [Sliding.rebalance]
  set T : ℤ := (((s.maxHeap.getD 0 (0,0)).2 + (s.minHeap.getD 0 (0,0)).2 : ℕ) : ℤ)
    with hTdef
  set desired := clampZ (Int.tdiv (T * ((p.den : ℤ) - p.num)) (p.den : ℤ)) 0 (T - 1)
    with hddef
  have hd0 : 0 ≤ desired := le_max_left _ _
  have hdT : desired ≤ T - 1 := by
    rw [hddef, clampZ]
    exact max_le (by omega) (min_le_right _ _)
  obtain ⟨hok1, hm1, htot1⟩ := moveMinToMax_spec B hB desired hd0 fuel s hok (by omega)
  obtain ⟨hok2, hm2, htot2⟩ := moveMaxToMin_spec B hB desired fuel
    (moveMinToMax fuel desired s) hok1 (by omega) (by omega)
  refine ⟨hok2, ?_, by omega⟩
  rw [hm2, hm1, max_eq_right (min_le_right _ _)]

/-- An operation on the sliding order-statistics window. -/
inductive SlideOp where
  | ins (key : ℕ) (val : ℚ)
  | rem (key : ℕ)
deriving DecidableEq

def SlideOp.key : SlideOp → ℕ
  | .ins k _ => k
  | .rem k => k

def slideStep (s : Sliding) (op : SlideOp) : Sliding :=
  match op with
  | .ins k v => s.insert k v
  | .rem k => s.remove k

/-- Run a sequence of insert/remove operations on a fresh structure with
`B` buffer slots. -/
def runOps (B : ℕ) (ops : List SlideOp) : Sliding :=
  ops.foldl slideStep (mkSliding B)

theorem foldl_slideStep_ok (B : ℕ) (hB : 1 ≤ B) :
    ∀ (ops : List SlideOp) (s : Sliding), SlidingOK B s →
      (∀ op ∈ ops, SlideOp.key op < B) →
      SlidingOK B (ops.foldl slideStep s) := by
  intro ops
  induction ops with
  | nil =>
    intro s hok _
    exact hok
  | cons op ops ih =>
    intro s hok hkeys
    rw [List.foldl_cons]
    refine ih _ ?_ (fun o ho => hkeys o (List.mem_cons_of_mem _ ho))
    cases op with
    | ins k v => exact insert_ok B hB s hok k (hkeys _ (List.mem_cons_self _ _)) v
    | rem k => exact remove_ok B hB s hok k (hkeys _ (List.mem_cons_self _ _))

theorem runOps_ok (B : ℕ) (hB : 1 ≤ B) (ops : List SlideOp)
    (hops : ∀ op ∈ ops, SlideOp.key op < B) : SlidingOK B (runOps B ops) :=
  foldl_slideStep_ok B hB ops (mkSliding B) (mkSliding_ok B hB) hops

/-- **C6** (amended).  After `rebalance(p)` on a window reached by any
sequence of in-range inserts and removes, with total live count `T ≥ 1`
(the sum of the two root counts, as the code computes it) and enough loop
fuel, the min-heap (high partition) root count equals the code's target
`clamp(int(T*(1-p)), 0, T-1)` — with `int(...)` the C truncation toward
zero of the exact product, `p = num/den` in lowest terms — and the
max-heap (low partition, whose pointed maximum `pivot()` returns) holds
the remaining `T - clamp(int(T*(1-p)), 0, T-1)` values.  The claim's
formula `clamp(round(T*(1-p)), 0, T-1)` for the low partition is refuted
by `rebalance_low_size_ne_claimed`. -/
theorem rebalance_partition_sizes (B : ℕ) (hB : 1 ≤ B) (ops : List SlideOp)
    (hops : ∀ op ∈ ops, SlideOp.key op < B) (p : ℚ) (fuel : ℕ) (T desired : ℤ)
    (hT : T = (((runOps B ops).maxHeap.getD 0 (0,0)).2 +
      ((runOps B ops).minHeap.getD 0 (0,0)).2 : ℕ))
    (hT1 : 1 ≤ T) (hfuel : T ≤ (fuel : ℤ))
    (hdes : desired = clampZ (Int.tdiv (T * ((p.den : ℤ) - p.num)) (p.den : ℤ))
      0 (T - 1)) :
    ((((runOps B ops).rebalance p fuel).minHeap.getD 0 (0,0)).2 : ℤ) = desired ∧
    ((((runOps B ops).rebalance p fuel).maxHeap.getD 0 (0,0)).2 : ℤ) = T - desired := by
  subst hT
  subst hdes
  have hok := runOps_ok B hB ops hops
  obtain ⟨_, hmin, htot⟩ := rebalance_spec B hB (runOps B ops) hok p fuel
    (by omega) (by omega)
  exact ⟨hmin, by omega⟩

theorem rebalance_partition_sizes_witness :
    (∀ op ∈ [SlideOp.ins 0 7], SlideOp.key op < 2) ∧
    (((((runOps 2 [SlideOp.ins 0 7]).rebalance halfQ 1).minHeap.getD 0 (0,0)).2 : ℤ) = 0 ∧
      ((((runOps 2 [SlideOp.ins 0 7]).rebalance halfQ 1).maxHeap.getD 0 (0,0)).2 : ℤ) =
        1 - 0) :=
  ⟨by decide, rebalance_partition_sizes 2 (by decide) [SlideOp.ins 0 7] (by decide)
    halfQ 1 1 0 (by decide) (by decide) (by decide) (by decide)⟩

/-- Counterexample to C6 as stated: one live value (`T = 1`) and
`p = 1/2`.  The code leaves that value in the low partition (root count 1,
first conjunct computed from the embedding), while the claim's formula
`clamp(round(T*(1-p)), 0, T-1) = clamp(round(1/2), 0, 0)` gives 0. -/
theorem rebalance_low_size_ne_claimed :
    ((((mkSliding 2).insert 0 7).rebalance halfQ 1).maxHeap.getD 0 (0,0)).2 = 1 ∧
    clampZ (round ((1 : ℚ) * (1 - halfQ))) 0 (1 - 1) = 0 := by
  constructor
  · decide
  · rw [halfQ_eq_half]
    have h1 : ((1 : ℚ)) * (1 - 1/2) + 1/2 = 1 := by norm_num
    rw [round_eq, h1, Int.floor_one]
    decide
